import Mathlib

/-!
Verification of the neomake workflow runner (Rust sources under `src/`)
against its natural-language specification.

The Rust data model and the operations the claims are about are shallowly
embedded below:

* `HashMap<String, String>` environment maps are modelled as functions
  `String → Option String` (`EMap`); `HashMap::insert` / `HashMap::extend`
  become `EMap.insert` / `EMap.extend`.
* Regex matching (the `fancy_regex` crate) is abstracted by a total match
  predicate `rmatch : String → String → Bool` (pattern, haystack); the repo
  only ever asks whether a compiled pattern matches a string.
* The ambient process environment (`std::env::vars()`) is passed in
  explicitly as a `List (String × String)` in iteration order.
* Fallible operations return `Except` / `Option`; a Rust `unwrap` panic on
  a value the model shows cannot be unwrapped is `Option.none`.
-/

namespace Neomake

/-- Model of `HashMap<String, String>`: a finite-support map, represented
extensionally as its lookup function. -/
def EMap : Type := String → Option String

/-- The empty map (`HashMap::new`). -/
def EMap.empty : EMap := fun _ => none

/-- Model of `HashMap::insert`: the new binding replaces any previous one. -/
def EMap.insert (m : EMap) (k v : String) : EMap :=
  fun k' => if k' = k then some v else m k'

/-- Model of `HashMap::extend`: every binding of `m2` is inserted into `m1`,
so on a key collision the `m2` binding wins. -/
def EMap.extend (m1 m2 : EMap) : EMap :=
  fun k => match m2 k with
    | some v => some v
    | none => m1 k

theorem EMap.insert_apply (m : EMap) (k v k' : String) :
    m.insert k v k' = if k' = k then some v else m k' := rfl

theorem EMap.extend_def (m1 m2 : EMap) (k : String) :
    EMap.extend m1 m2 k = ((m2 k).orElse (fun _ => m1 k)) := by
  unfold EMap.extend
  cases m2 k <;> rfl

/-! ## Env blocks (`src/workflow.rs`, `struct Env` and `Env::compile`) -/

/-- Model of `workflow::Env`: an env block with an optional `capture` regex and
optional explicit `vars`. -/
structure EnvBlock where
  capture : Option String
  vars : Option EMap

/-- Model of `Env::compile` (src/workflow.rs:56-71): start from a clone of `vars`
(or the empty map), then, if `capture` is present, walk the process
environment and `insert` every pair whose name matches the capture
pattern. `rmatch pat s` stands for `Regex::new(pat).is_match(s)`;
`procEnv` stands for `std::env::vars()` in iteration order. -/
def EnvBlock.compile (e : EnvBlock) (rmatch : String → String → Bool)
    (procEnv : List (String × String)) : EMap :=
  let map := e.vars.getD EMap.empty
  match e.capture with
  | some pat =>
      procEnv.foldl (fun m p => if rmatch pat p.1 then m.insert p.1 p.2 else m) map
  | none => map

/-- Caller-side handling of an optional env block
(`Compiler::plan`, src/compiler.rs:36-39 and 50-53): an absent block
compiles to the empty map. -/
def compileOptEnv (e : Option EnvBlock) (rmatch : String → String → Bool)
    (procEnv : List (String × String)) : EMap :=
  match e with
  | some v => v.compile rmatch procEnv
  | none => EMap.empty

/-- The value captured from the process environment for key `k`: the value
of the last process-environment entry named `k` whose name matches the
capture pattern (later entries overwrite earlier inserts). -/
def capturedVal (rmatch : String → String → Bool) (pat : String)
    (procEnv : List (String × String)) (k : String) : Option String :=
  ((procEnv.filter (fun p => p.1 = k && rmatch pat p.1)).getLast?).map (·.2)

theorem capturedVal_nil (rmatch : String → String → Bool) (pat k : String) :
    capturedVal rmatch pat [] k = none := rfl

theorem capturedVal_append_one (rmatch : String → String → Bool) (pat k : String)
    (pe : List (String × String)) (p : String × String) :
    capturedVal rmatch pat (pe ++ [p]) k =
      if p.1 = k && rmatch pat p.1 then some p.2 else capturedVal rmatch pat pe k := by
  unfold capturedVal
  rw [List.filter_append]
  by_cases h : (p.1 = k && rmatch pat p.1) = true
  · simp [h]
  · simp [h]

/-- Characterization of the capture fold. -/
theorem capture_foldl_spec (rmatch : String → String → Bool) (pat : String)
    (procEnv : List (String × String)) (base : EMap) (k : String) :
    (procEnv.foldl (fun m p => if rmatch pat p.1 then m.insert p.1 p.2 else m) base) k =
      match capturedVal rmatch pat procEnv k with
      | some v => some v
      | none => base k := by
  induction procEnv using List.reverseRecOn with
  | nil => simp [capturedVal_nil]
  | append_singleton pe p ih =>
      rw [List.foldl_append, List.foldl_cons, List.foldl_nil, capturedVal_append_one]
      by_cases hm : rmatch pat p.1 = true
      · by_cases hk : p.1 = k
        · subst hk
          simp [hm, EMap.insert]
        · rw [if_pos hm, EMap.insert_apply, if_neg (fun h => hk h.symm)]
          have hc : (decide (p.1 = k) && rmatch pat p.1) = false := by simp [hk]
          rw [hc]
          simpa using ih
      · have hm' : rmatch pat p.1 = false := by simpa using hm
        rw [hm']
        simpa using ih

/-- C1 counterexample data: an env block whose `capture` pattern matches the
process-environment variable `A` (valued `y` there) while `vars` also binds
`A` to `x`. The matcher models the regex `^A$`. -/
def c1Block : EnvBlock :=
  { capture := some "A", vars := some (EMap.empty.insert "A" "x") }

/-- C1 is false on the code: for a key that is both captured from the process
environment and present in `vars`, `Env::compile` returns the *captured*
value, not the `vars` value. Here `A` is captured (the matcher accepts it),
`vars` maps it to `x`, the process environment maps it to `y`, and the
compiled map returns `y`. -/
theorem c1_counterexample :
    ((fun pat s => pat == s) "A" "A" = true) ∧
    (EMap.empty.insert "A" "x") "A" = some "x" ∧
    EnvBlock.compile c1Block (fun pat s => pat == s) [("A", "y")] "A" = some "y" ∧
    (some "y" : Option String) ≠ some "x" := by
  refine ⟨by decide, by decide, by decide, by decide⟩

/-- C1 amended: compiling an env block starts from `vars` (or the empty map)
and then inserts every captured process-environment pair, so on a collision
the *captured* value (the last matching process-environment entry) overrides
the `vars` value; a key that is not captured keeps its `vars` value; an
absent env block still compiles to the empty map. -/
theorem c1_env_precedence :
    (∀ (e : EnvBlock) (rmatch : String → String → Bool)
        (procEnv : List (String × String)) (k : String),
      e.compile rmatch procEnv k =
        match e.capture with
        | some pat =>
            (match capturedVal rmatch pat procEnv k with
             | some v => some v
             | none => (e.vars.getD EMap.empty) k)
        | none => (e.vars.getD EMap.empty) k) ∧
    (∀ (rmatch : String → String → Bool) (procEnv : List (String × String)) (k : String),
      compileOptEnv none rmatch procEnv k = none) := by
  constructor
  · intro e rmatch procEnv k
    unfold EnvBlock.compile
    cases e.capture with
    | some pat => exact capture_foldl_spec rmatch pat procEnv _ k
    | none => rfl
  · intro rmatch procEnv k
    rfl

/-! ## Matrix compilation (`src/workflow.rs`, `Matrix::compile`) -/

/-- Model of `workflow::MatrixCell`. -/
structure MatrixCell where
  env : Option EMap

/-- Model of `workflow::Matrix`: a tagged union of the dense and sparse forms. -/
inductive WMatrix where
  | dense (drop : Option String) (dimensions : List (List MatrixCell))
  | sparse (dimensions : List (List MatrixCell)) (keep : Option String)

/-- Model of `plan::Invocation`. -/
structure Invocation where
  coords : String
  env : EMap

/-- Model of the default `Invocation` value (`Default::default()`). -/
def Invocation.dflt : Invocation := { coords := "", env := EMap.empty }

/-- Cartesian product of a non-empty list of factors, in itertools order
(the first factor varies slowest). -/
def cartProdNE {α : Type} : List (List α) → List (List α)
  | [] => [[]]
  | d :: rest => (d.map (fun x => (cartProdNE rest).map (fun p => x :: p))).flatten

/-- itertools `multi_cartesian_product`: like the cartesian product, except
that an empty list of factors yields no points at all (not one empty
point). -/
def multiCartesianProduct {α : Type} (ds : List (List α)) : List (List α) :=
  match ds with
  | [] => []
  | _ :: _ => cartProdNE ds

theorem cartProdNE_length {α : Type} (ds : List (List α)) :
    (cartProdNE ds).length = (ds.map List.length).prod := by
  induction ds with
  | nil => rfl
  | cons d rest ih =>
      simp only [cartProdNE, List.length_flatten, List.map_map, List.map_cons, List.prod_cons]
      rw [← ih]
      have : (List.map (List.length ∘ fun x => (cartProdNE rest).map (fun p => x :: p)) d) =
          List.map (fun _ => (cartProdNE rest).length) d := by
        apply List.map_congr_left
        intro x _
        simp
      rw [this, List.map_const', List.sum_replicate, smul_eq_mul]

theorem mem_cartProdNE {α : Type} (ds : List (List α)) (pt : List α) :
    pt ∈ cartProdNE ds ↔ List.Forall₂ (fun x d => x ∈ d) pt ds := by
  induction ds generalizing pt with
  | nil =>
      constructor
      · intro h
        simp only [cartProdNE, List.mem_singleton] at h
        subst h
        exact List.Forall₂.nil
      · intro h
        cases h
        simp [cartProdNE]
  | cons d rest ih =>
      constructor
      · intro h
        simp only [cartProdNE, List.mem_flatten, List.mem_map] at h
        obtain ⟨l, ⟨x, hx, rfl⟩, hpt⟩ := h
        simp only [List.mem_map] at hpt
        obtain ⟨q, hq, rfl⟩ := hpt
        exact List.Forall₂.cons hx ((ih q).mp hq)
      · intro h
        cases h with
        | cons hx hq =>
            rename_i x q
            simp only [cartProdNE, List.mem_flatten, List.mem_map]
            refine ⟨(cartProdNE rest).map (fun p => x :: p), ⟨x, hx, rfl⟩, ?_⟩
            simp only [List.mem_map]
            exact ⟨q, (ih q).mpr hq, rfl⟩

theorem cartProdNE_complete {α : Type} {ds : List (List α)} {pt : List α}
    (h : List.Forall₂ (fun x d => x ∈ d) pt ds) : pt ∈ cartProdNE ds :=
  (mem_cartProdNE ds pt).mpr h

/-- The coordinate string of a product point: the comma-joined per-dimension
indices in dimension order (src/workflow.rs:148). -/
def coordsOf (pt : List (Nat × MatrixCell)) : String :=
  String.intercalate "," (pt.map (fun v => toString v.1))

/-- The dimension lists carried by either matrix form
(src/workflow.rs:122-125). -/
def WMatrix.dims : WMatrix → List (List MatrixCell)
  | .dense _ d => d
  | .sparse d _ => d

/-- The filter decision of `Matrix::compile` (src/workflow.rs:150-171):
a Dense matrix drops the points whose coords match `drop` (keeps all when
`drop` is absent); a Sparse matrix keeps the points whose coords match
`keep` (drops all when `keep` is absent). -/
def WMatrix.keeps (m : WMatrix) (rmatch : String → String → Bool) (coords : String) : Bool :=
  match m with
  | .dense drop _ =>
      match drop with
      | some pat => !(rmatch pat coords)
      | none => true
  | .sparse _ keep =>
      match keep with
      | some pat => rmatch pat coords
      | none => false

/-- Model of `Matrix::compile` (src/workflow.rs:121-183): index every cell within its
dimension, take the multi-cartesian product, keep the points that survive
the polarity filter, and emit an invocation per kept point whose env is the
union of the selected cells' envs in dimension order. -/
def WMatrix.compile (m : WMatrix) (rmatch : String → String → Bool) : List Invocation :=
  let dimsWidx := m.dims.map List.enum
  let cp := multiCartesianProduct dimsWidx
  (cp.filter (fun pt => m.keeps rmatch (coordsOf pt))).map (fun pt =>
    { coords := coordsOf pt
      env := pt.foldl (fun acc c =>
        match c.2.env with
        | some e => acc.extend e
        | none => acc) EMap.empty })

/-- Assignment of invocations to a plan node (src/compiler.rs:62,81-84):
a present matrix is compiled; an absent matrix defaults to the single
default invocation. -/
def nodeInvocations (matrix : Option WMatrix) (rmatch : String → String → Bool) :
    List Invocation :=
  match matrix with
  | some m => m.compile rmatch
  | none => [Invocation.dflt]

/-- All product points of a dimension list, with their per-dimension
indices baked in. -/
def allPoints (dims : List (List MatrixCell)) : List (List (Nat × MatrixCell)) :=
  multiCartesianProduct (dims.map List.enum)

/-- All coordinate strings, in enumeration order. -/
def allCoords (dims : List (List MatrixCell)) : List String :=
  (allPoints dims).map coordsOf

theorem filter_map_comm {α β : Type} (l : List α) (f : α → β) (p : α → Bool) (q : β → Bool)
    (h : ∀ x ∈ l, q (f x) = p x) : (l.filter p).map f = (l.map f).filter q := by
  induction l with
  | nil => rfl
  | cons a t ih =>
      simp only [List.filter_cons, List.map_cons]
      rw [h a (by simp)]
      by_cases hp : p a = true
      · simp only [hp, if_true, List.filter_cons, List.map_cons]
        rw [ih (fun x hx => h x (by simp [hx]))]
      · have hp' : p a = false := by simpa using hp
        simp only [hp', Bool.false_eq_true, if_false, List.filter_cons]
        rw [ih (fun x hx => h x (by simp [hx]))]

theorem compile_coords (m : WMatrix) (rmatch : String → String → Bool) :
    (m.compile rmatch).map Invocation.coords =
      (allCoords m.dims).filter (m.keeps rmatch) := by
  unfold WMatrix.compile allCoords allPoints
  rw [List.map_map]
  exact filter_map_comm _ _ _ _ (fun x _ => rfl)

theorem multiCartesianProduct_of_ne_nil {α : Type} (ds : List (List α)) (h : ds ≠ []) :
    multiCartesianProduct ds = cartProdNE ds := by
  cases ds with
  | nil => exact absurd rfl h
  | cons d rest => rfl

theorem cartProdNE_enum_complete {α : Type} {idxs : List Nat} {dims : List (List α)}
    (h : List.Forall₂ (fun i (d : List α) => i < d.length) idxs dims) :
    ∃ pt ∈ cartProdNE (dims.map List.enum), pt.map Prod.fst = idxs := by
  induction h with
  | nil => exact ⟨[], by simp [cartProdNE], rfl⟩
  | @cons i d idxs' dims' hi htail ih =>
      obtain ⟨pt', hpt', hfst⟩ := ih
      refine ⟨(i, d.get ⟨i, hi⟩) :: pt', ?_, by simp [hfst]⟩
      rw [mem_cartProdNE] at hpt'
      rw [List.map_cons, mem_cartProdNE]
      refine List.Forall₂.cons ?_ hpt'
      refine List.mem_enum_iff_getElem?.mpr ?_
      simp

/-- C4: for a matrix with a non-empty list of non-empty dimensions, the
compiler enumerates all `∏ |Di|` cartesian-product points; every point's
components are exactly the zero-based indexed cells of the respective
dimensions in dimension order; every valid index tuple occurs; and the kept
coordinate strings are exactly the enumerated ones that survive the
Dense/Sparse polarity filter. -/
theorem c4_matrix_expansion (rmatch : String → String → Bool)
    (dims : List (List MatrixCell)) (hne : dims ≠ []) (_hall : ∀ d ∈ dims, d ≠ []) :
    ((allPoints dims).length = (dims.map List.length).prod) ∧
    (∀ pt ∈ allPoints dims,
        List.Forall₂ (fun (c : Nat × MatrixCell) d => d[c.1]? = some c.2) pt dims) ∧
    (∀ idxs : List Nat,
        List.Forall₂ (fun i (d : List MatrixCell) => i < d.length) idxs dims →
        ∃ pt ∈ allPoints dims, pt.map Prod.fst = idxs) ∧
    (∀ drop, ((WMatrix.dense drop dims).compile rmatch).map Invocation.coords =
        (allCoords dims).filter (fun c =>
          match drop with
          | some pat => !(rmatch pat c)
          | none => true)) ∧
    (∀ keep, ((WMatrix.sparse dims keep).compile rmatch).map Invocation.coords =
        (allCoords dims).filter (fun c =>
          match keep with
          | some pat => rmatch pat c
          | none => false)) := by
  have hmap : dims.map List.enum ≠ [] := by
    intro h
    exact hne (List.map_eq_nil_iff.mp h)
  have hpts : allPoints dims = cartProdNE (dims.map List.enum) :=
    multiCartesianProduct_of_ne_nil _ hmap
  refine ⟨?_, ?_, ?_, ?_, ?_⟩
  · rw [hpts, cartProdNE_length, List.map_map]
    congr 1
    apply List.map_congr_left
    intro d _
    simp [List.enum_length]
  · intro pt hpt
    rw [hpts] at hpt
    have h2 := (mem_cartProdNE _ pt).mp hpt
    rw [List.forall₂_map_right_iff] at h2
    exact h2.imp (fun a b hx => List.mem_enum_iff_getElem?.mp hx)
  · intro idxs hidx
    rw [hpts]
    exact cartProdNE_enum_complete hidx
  · intro drop
    rw [compile_coords]
    cases drop <;> rfl
  · intro keep
    rw [compile_coords]
    cases keep <;> rfl

/-- Witness for C4: at the one-dimensional matrix with a single cell, the
expansion enumerates exactly one point. -/
theorem c4_witness :
    (allPoints [[(⟨none⟩ : MatrixCell)]]).length = 1 := by
  have h := c4_matrix_expansion (fun _ _ => true) [[(⟨none⟩ : MatrixCell)]]
    (by simp) (by simp)
  simpa using h.1

/-- C8 is false on the code: a present matrix with an empty dimension list
compiles to zero invocations (itertools yields no points for an empty
product), not to the single default invocation the claim requires. -/
theorem c8_counterexample :
    nodeInvocations (some (WMatrix.dense none [])) (fun _ _ => true) = [] ∧
    ([] : List Invocation).length ≠ 1 :=
  ⟨rfl, by decide⟩

/-- C8 amended: a matrix with an empty dimension list (Dense or Sparse)
compiles to zero invocations — unlike an absent matrix, which yields
exactly one invocation with empty coords and empty env. -/
theorem c8_empty_dimensions :
    (∀ (rmatch : String → String → Bool) (drop : Option String),
        (WMatrix.dense drop []).compile rmatch = []) ∧
    (∀ (rmatch : String → String → Bool) (keep : Option String),
        (WMatrix.sparse [] keep).compile rmatch = []) ∧
    (∀ rmatch : String → String → Bool,
        nodeInvocations none rmatch = [Invocation.dflt] ∧
        Invocation.dflt.coords = "" ∧ ∀ k, Invocation.dflt.env k = none) := by
  refine ⟨fun rmatch drop => rfl, fun rmatch keep => rfl, fun rmatch => ⟨rfl, rfl, fun k => rfl⟩⟩

/-! ## Error taxonomy (`src/error.rs`, the variants the claims touch) -/

/-- The crate's `Error` enum, restricted to the variants relevant here. -/
inductive Err where
  | generic (msg : String)
  | many (errs : List Err)
  | childProcess (msg : String)
  | nodeRecursion
  | notFound (name : String)

/-! ## Plan data model (`src/plan.rs`) -/

/-- Model of `plan::Shell`. -/
structure PShell where
  program : String
  args : List String

/-- Model of `plan::Task`. -/
structure PTask where
  cmd : String
  env : EMap
  shell : Option PShell
  workdir : Option String

/-- Model of `plan::Node`. -/
structure PNode where
  invocations : List Invocation
  tasks : List PTask
  env : EMap
  shell : Option PShell
  workdir : Option String

/-- Model of `plan::ExecutionPlan`; a `Stage` is its list of node names. -/
structure Plan where
  nodes : List (String × PNode)
  stages : List (List String)
  env : EMap

/-! ## Execution engine (`src/exec.rs`, `ExecutionEngine::execute`) -/

/-- The fallback shell (src/exec.rs:66-70). -/
def defaultShell : PShell := { program := "sh", args := ["-c"] }

/-- Effective workdir: first set value of `task.workdir → node.workdir → none`
(src/exec.rs:53-59). -/
def effectiveWorkdir (task : PTask) (node : PNode) : Option String :=
  match task.workdir with
  | some w => some w
  | none => node.workdir

/-- Effective shell: `task.shell → node.shell → default` (src/exec.rs:61-70). -/
def effectiveShell (task : PTask) (node : PNode) : PShell :=
  match task.shell with
  | some s => s
  | none =>
      match node.shell with
      | some s => s
      | none => defaultShell

/-- Model of `struct Work` (src/exec.rs:32-37). -/
structure Work where
  workdir : Option String
  env : EMap
  shell : PShell
  command : String

/-- The work list built for one (node, invocation) pair (src/exec.rs:50-84):
one `Work` per task, with the env composed by extending the plan env with
the node env, then the invocation env, then the task env. -/
def buildWork (plan : Plan) (node : PNode) (inv : Invocation) : List Work :=
  node.tasks.map (fun task =>
    { workdir := effectiveWorkdir task node
      env := ((plan.env.extend node.env).extend inv.env).extend task.env
      shell := effectiveShell task node
      command := task.cmd })

theorem buildWork_length (plan : Plan) (node : PNode) (inv : Invocation) :
    (buildWork plan node inv).length = node.tasks.length := by
  simp [buildWork]

/-- One work item run on a pool worker (src/exec.rs:88-115): tasks run in
order; a child exiting with a non-zero code aborts the item with a
`ChildProcess` error; a child whose exit status carries no code (signal
termination) falls through the `if let Some(code)` and the loop simply
continues. `exitOf` abstracts the observed exit status of each spawned
child. -/
def runWorkItem (exitOf : Work → Option Int) : List Work → Except Err Unit
  | [] => .ok ()
  | w :: rest =>
      match exitOf w with
      | some code =>
          if code ≠ 0 then
            .error (.childProcess
              ("command \"" ++ w.command ++ "\" failed with code " ++ toString code))
          else runWorkItem exitOf rest
      | none => runWorkItem exitOf rest

/-- The message a worker sends on the signal channel (src/exec.rs:116-122):
an item error is re-wrapped as `Error::Generic(format!("{:?}", e))`; `dbg`
abstracts the `{:?}` rendering of the error. -/
def itemSignal (exitOf : Work → Option Int) (dbg : Err → String) (work : List Work) :
    Except Err Unit :=
  match runWorkItem exitOf work with
  | .ok _ => .ok ()
  | .error e => .error (.generic (dbg e))

/-- Model of `plan.nodes.get(v)` (src/exec.rs:44). -/
def lookupNodeP (plan : Plan) (name : String) : Option PNode :=
  (plan.nodes.find? (fun p => p.1 == name)).map (·.2)

/-- Outcome of one stage of `ExecutionEngine::execute`. `panicked` models the
`unwrap` on a stage node missing from `plan.nodes` (src/exec.rs:44);
`signal_cnt` is incremented once per (invocation, task) pair
(src/exec.rs:77) while each submitted item sends exactly one message, and
the receive loop takes exactly `signal_cnt` messages (src/exec.rs:127-129),
so the collected outcome is deterministic only when the counts agree:
`hung` marks a stage that waits forever (more takes than sends) and
`indeterminate` one that would return after a scheduling-dependent prefix
(fewer takes than sends). -/
inductive StageOutcome where
  | panicked
  | hung
  | indeterminate
  | completed (errs : List Err)

/-- One stage (src/exec.rs:39-135), with channel arrival order modelled as
submission order (the claims only depend on the multiset of results). -/
def runStage (exitOf : Work → Option Int) (dbg : Err → String) (plan : Plan)
    (stage : List String) : StageOutcome :=
  match stage.mapM (lookupNodeP plan) with
  | none => .panicked
  | some nodes =>
      let items := nodes.flatMap (fun node =>
        node.invocations.map (fun inv => buildWork plan node inv))
      let signalCnt := (items.map List.length).sum
      if signalCnt > items.length then .hung
      else if signalCnt < items.length then .indeterminate
      else
        .completed (items.filterMap (fun work =>
          match itemSignal exitOf dbg work with
          | .ok _ => none
          | .error e => some e))

/-- Overall engine result. -/
inductive EngineResult where
  | panicked
  | hung
  | indeterminate
  | finished (r : Except Err Unit)

/-- Stage-by-stage loop (src/exec.rs:39-137): a stage with a non-empty error
list returns `Many(errs)` at once; later stages only run after an
error-free stage. -/
def executeStages (exitOf : Work → Option Int) (dbg : Err → String) (plan : Plan) :
    List (List String) → EngineResult
  | [] => .finished (.ok ())
  | stage :: rest =>
      match runStage exitOf dbg plan stage with
      | .panicked => .panicked
      | .hung => .hung
      | .indeterminate => .indeterminate
      | .completed errs =>
          if errs.isEmpty then executeStages exitOf dbg plan rest
          else .finished (.error (.many errs))

/-- Model of `ExecutionEngine::execute` (src/exec.rs:31-138). -/
def executePlan (exitOf : Work → Option Int) (dbg : Err → String) (plan : Plan) :
    EngineResult :=
  executeStages exitOf dbg plan plan.stages

/-- C3: the env handed to the child spawned for task `i` of node `node`
under invocation `inv` of plan `plan` maps each key `k` to the value from
the last of (plan env, node env, invocation env, task env) that defines
`k`. -/
theorem c3_env_composition (plan : Plan) (node : PNode) (inv : Invocation)
    (i : Nat) (hi : i < node.tasks.length) (k : String) :
    ((buildWork plan node inv).get ⟨i, (buildWork_length plan node inv).symm ▸ hi⟩).env k =
      match (node.tasks.get ⟨i, hi⟩).env k with
      | some v => some v
      | none =>
          match inv.env k with
          | some v => some v
          | none =>
              match node.env k with
              | some v => some v
              | none => plan.env k := by
  simp only [buildWork, List.get_eq_getElem, List.getElem_map]
  rfl

/-- Witness for C3 at a concrete plan: the task env wins over the
invocation, node and plan envs for key `K`, and for a key only the plan
defines, the plan value survives. -/
theorem c3_witness :
    ((buildWork
        { nodes := [], stages := [["n"]], env := (EMap.empty.insert "K" "p").insert "P" "pp" }
        { invocations := [{ coords := "", env := EMap.empty.insert "K" "i" }],
          tasks := [{ cmd := "echo", env := EMap.empty.insert "K" "t", shell := none,
                      workdir := none }],
          env := EMap.empty.insert "K" "n", shell := none, workdir := none }
        { coords := "", env := EMap.empty.insert "K" "i" }).get
      ⟨0, by simp [buildWork]⟩).env "K" = some "t" := by
  have h := c3_env_composition
    { nodes := [], stages := [["n"]], env := (EMap.empty.insert "K" "p").insert "P" "pp" }
    { invocations := [{ coords := "", env := EMap.empty.insert "K" "i" }],
      tasks := [{ cmd := "echo", env := EMap.empty.insert "K" "t", shell := none,
                  workdir := none }],
      env := EMap.empty.insert "K" "n", shell := none, workdir := none }
    { coords := "", env := EMap.empty.insert "K" "i" }
    0 (by decide) "K"
  simpa [EMap.insert] using h

/-! ## Concrete plans for the engine claims -/

/-- A single-task node whose only task runs `cmd` with default settings. -/
def simpleNode (cmd : String) : PNode :=
  { invocations := [Invocation.dflt],
    tasks := [{ cmd := cmd, env := EMap.empty, shell := none, workdir := none }],
    env := EMap.empty, shell := none, workdir := none }

/-- The C6 scenario: one stage holding two nodes whose only tasks exit with
codes 1 and 2, followed by a second stage naming a node missing from the
plan (so that reaching it would be observable as a panic). -/
def c6plan : Plan :=
  { nodes := [("n1", simpleNode "exit 1"), ("n2", simpleNode "exit 2")],
    stages := [["n1", "n2"], ["missing"]],
    env := EMap.empty }

/-- Exit statuses for the C6 scenario. -/
def c6exit : Work → Option Int := fun w =>
  if w.command = "exit 1" then some 1
  else if w.command = "exit 2" then some 2
  else some 0

/-- The two `ChildProcess` payloads produced inside the C6 work items. -/
def c6msg1 : String := "command \"exit 1\" failed with code 1"

def c6msg2 : String := "command \"exit 2\" failed with code 2"

/-- C6 is false on the code as stated: the error is `Many`, no later stage
runs, but the two entries inside `Many` are `Generic` (the worker re-wraps
each item failure as `Error::Generic(format!("{:?}", e))`,
src/exec.rs:118-121), not `ChildProcess` entries. -/
theorem c6_counterexample :
    executePlan c6exit (fun _ => "dbg") c6plan =
      .finished (.error (.many [.generic "dbg", .generic "dbg"])) ∧
    (∀ msg, Err.generic "dbg" ≠ Err.childProcess msg) := by
  constructor
  · rfl
  · intro msg h
    exact Err.noConfusion h

/-- C6 amended: in the two-failing-nodes scenario the engine returns
`Many` holding exactly two `Generic` entries, each wrapping the rendered
`ChildProcess` failure carrying codes 1 and 2 respectively, and the run
ends at that stage: the second stage, whose node is missing from the plan
and whose start would therefore be observable as a panic, is never
started. -/
theorem c6_failure_aggregation (dbg : Err → String) :
    executePlan c6exit dbg c6plan =
      .finished (.error (.many
        [.generic (dbg (.childProcess c6msg1)),
         .generic (dbg (.childProcess c6msg2))])) ∧
    runStage c6exit dbg c6plan ["missing"] = .panicked := by
  exact ⟨rfl, rfl⟩

/-- The C7 scenario: a plan whose single task's child terminates without an
exit code. -/
def c7plan : Plan :=
  { nodes := [("n", simpleNode "boom")],
    stages := [["n"]],
    env := EMap.empty }

/-- C7 is false on the code: when the child's exit status carries no code
(signal termination) the `if let Some(code)` test simply falls through
(src/exec.rs:107-112), so the work item — and the whole run — succeeds
instead of reporting a `ChildProcess` error. -/
theorem c7_counterexample :
    runWorkItem (fun _ => none)
      [{ workdir := none, env := EMap.empty, shell := defaultShell, command := "boom" }] =
      .ok () ∧
    executePlan (fun _ => none) (fun _ => "dbg") c7plan = .finished (.ok ()) ∧
    (∀ e : Err, (Except.ok () : Except Err Unit) ≠ .error e) := by
  refine ⟨rfl, rfl, ?_⟩
  intro e h
  exact Except.noConfusion h

/-- C7 amended: a task whose child terminates without an exit code is
treated as a success — the work item continues with the remaining tasks
exactly as if the task had exited 0, and no error is reported for it. -/
theorem c7_signal_termination (exitOf : Work → Option Int) (w : Work)
    (rest : List Work) (h : exitOf w = none) :
    runWorkItem exitOf (w :: rest) = runWorkItem exitOf rest := by
  simp only [runWorkItem, h]

/-- Witness for the amended C7 at a concrete work item, applied by name. -/
theorem c7_witness :
    ((fun _ => none) : Work → Option Int)
        { workdir := none, env := EMap.empty, shell := defaultShell, command := "boom" } =
      none ∧
    runWorkItem (fun _ => none)
        ({ workdir := none, env := EMap.empty, shell := defaultShell, command := "boom" } ::
          []) =
      runWorkItem (fun _ => none) [] :=
  ⟨rfl, c7_signal_termination (fun _ => none)
    { workdir := none, env := EMap.empty, shell := defaultShell, command := "boom" } [] rfl⟩

/-! ## Arg structuring (`src/compiler.rs`, `Compiler::compile_exec_args`) -/

/-- The fragment of `serde_json::Value` that `compile_exec_args` builds:
string leaves and objects. -/
inductive JVal where
  | str (s : String)
  | obj (entries : List (String × JVal))

/-- Model of `map.entry(k).or_insert(v)` when the inserted value is returned only
for its side effect: keep an existing entry, otherwise append `(k, v)`. -/
def entryOrInsert (entries : List (String × JVal)) (k : String) (v : JVal) :
    List (String × JVal) :=
  if entries.any (fun p => p.1 == k) then entries else entries ++ [(k, v)]

/-- Lookup in an object's entry list. -/
def findEntry (entries : List (String × JVal)) (k : String) : Option JVal :=
  (entries.find? (fun p => p.1 == k)).map (·.2)

/-- Model of `map.entry(k).or_insert(default)` followed by mutating the entry in
place to `v`: replace the entry if present, otherwise append. -/
def setEntry (entries : List (String × JVal)) (k : String) (v : JVal) :
    List (String × JVal) :=
  if entries.any (fun p => p.1 == k) then
    entries.map (fun p => if p.1 == k then (k, v) else p)
  else entries ++ [(k, v)]

/-- Model of `recursive_add` (src/compiler.rs:145-168). `none` models a panic: the
`pop_front().unwrap()` on an empty namespace deque, or the
`as_object_mut().unwrap()` when the current node is a string leaf. -/
def recursiveAdd : List String → JVal → String → Option JVal
  | [], _, _ => none
  | [current], parent, value =>
      match parent with
      | .str _ => none
      | .obj entries => some (.obj (entryOrInsert entries current (.str value)))
  | current :: rest, parent, value =>
      match parent with
      | .str _ => none
      | .obj entries =>
          match recursiveAdd rest ((findEntry entries current).getD (.obj [])) value with
          | none => none
          | some child => some (.obj (setEntry entries current child))

/-- Model of `arg.0.split(dot)`. -/
def splitPath (s : String) : List String := s.splitOn "."

/-- Model of `compile_exec_args` (src/compiler.rs:144-176): fold every arg into the
root object. The args are given in the `HashMap` iteration order. -/
def compileExecArgs (args : List (String × String)) : Option JVal :=
  args.foldl (fun acc arg =>
    match acc with
    | none => none
    | some v => recursiveAdd (splitPath arg.1) v arg.2) (some (.obj []))

theorem splitOnAux_length_lt (s sep : String) (b i j : String.Pos) (r : List String) :
    r.length < (String.splitOnAux s sep b i j r).length := by
  induction b, i, j, r using String.splitOnAux.induct s sep with
  | case1 b i j r h =>
      rw [String.splitOnAux, if_pos h]
      simp
  | case2 b i j r h1 h2 i1 j1 h3 ih =>
      rw [String.splitOnAux, if_neg h1, if_pos h2]
      simp only []
      rw [if_pos h3]
      exact Nat.lt_of_succ_lt (by simpa using ih)
  | case3 b i j r h1 h2 i1 j1 h3 ih =>
      rw [String.splitOnAux, if_neg h1, if_pos h2]
      simp only []
      rw [if_neg h3]
      exact ih
  | case4 b i j r h1 h2 ih =>
      rw [String.splitOnAux, if_neg h1, if_neg h2]
      exact ih

theorem splitPath_ne_nil (s : String) : splitPath s ≠ [] := by
  unfold splitPath String.splitOn
  by_cases h : ("." : String) == ""
  · simp at h
  · rw [if_neg h]
    intro hc
    have := splitOnAux_length_lt s "." 0 0 0 []
    rw [hc] at this
    simp at this

theorem splitPath_a : splitPath "a" = ["a"] := by
  unfold splitPath
  rw [String.splitOn, if_neg (by decide)]
  rw [String.splitOnAux, if_neg (by decide), if_neg (by decide)]
  rw [String.splitOnAux, if_pos (by decide)]
  decide

theorem splitPath_b : splitPath "b" = ["b"] := by
  unfold splitPath
  rw [String.splitOn, if_neg (by decide)]
  rw [String.splitOnAux, if_neg (by decide), if_neg (by decide)]
  rw [String.splitOnAux, if_pos (by decide)]
  decide

theorem splitPath_ab : splitPath "a.b" = ["a", "b"] := by
  unfold splitPath
  rw [String.splitOn, if_neg (by decide)]
  rw [String.splitOnAux, if_neg (by decide), if_neg (by decide)]
  rw [String.splitOnAux, if_neg (by decide), if_pos (by decide)]
  simp only []
  rw [if_pos (by decide)]
  rw [String.splitOnAux, if_neg (by decide), if_neg (by decide)]
  rw [String.splitOnAux, if_pos (by decide)]
  decide

/-- Path membership in the built value. -/
def lookupPath : JVal → List String → Option JVal
  | v, [] => some v
  | .str _, _ :: _ => none
  | .obj entries, k :: rest =>
      match findEntry entries k with
      | none => none
      | some child => lookupPath child rest

/-- The built value holds a string leaf at path `p`. -/
def StrLeafAt (v : JVal) (p : List String) : Prop :=
  ∃ s, lookupPath v p = some (.str s)

theorem strLeafAt_obj_nil (p : List String) : ¬ StrLeafAt (.obj []) p := by
  intro ⟨s, hs⟩
  cases p with
  | nil => exact JVal.noConfusion (Option.some.inj hs)
  | cons k rest =>
      simp [lookupPath, findEntry] at hs

/-- Whether `p` is a strict prefix of `q`. -/
def pathLtB : List String → List String → Bool
  | [], [] => false
  | [], _ :: _ => true
  | _ :: _, [] => false
  | a :: as, b :: bs => a == b && pathLtB as bs

/-- No arg key's dot-separated path is a strict prefix of another arg key's
path (in either direction). -/
def StrictPrefixFree (paths : List (List String)) : Prop :=
  List.Pairwise (fun p q => pathLtB p q = false ∧ pathLtB q p = false) paths

theorem findEntry_nil (k : String) : findEntry [] k = none := rfl

theorem findEntry_cons (p : String × JVal) (entries : List (String × JVal)) (k : String) :
    findEntry (p :: entries) k =
      if p.1 = k then some p.2 else findEntry entries k := by
  unfold findEntry
  by_cases h : p.1 = k
  · rw [if_pos h, List.find?_cons_of_pos _ (by simpa using h)]
    rfl
  · rw [if_neg h, List.find?_cons_of_neg _ (by simpa using h)]

theorem findEntry_append (l1 l2 : List (String × JVal)) (k : String) :
    findEntry (l1 ++ l2) k =
      match findEntry l1 k with
      | some v => some v
      | none => findEntry l2 k := by
  induction l1 with
  | nil => simp [findEntry_nil]
  | cons p t ih =>
      rw [List.cons_append, findEntry_cons, findEntry_cons]
      by_cases h : p.1 = k
      · rw [if_pos h, if_pos h]
      · rw [if_neg h, if_neg h, ih]

theorem findEntry_isSome_of_any (entries : List (String × JVal)) (k : String)
    (h : entries.any (fun p => p.1 == k) = true) : (findEntry entries k).isSome := by
  induction entries with
  | nil => simp at h
  | cons p t ih =>
      rw [findEntry_cons]
      by_cases hk : p.1 = k
      · rw [if_pos hk]
        rfl
      · rw [if_neg hk]
        refine ih ?_
        simp only [List.any_cons, Bool.or_eq_true] at h
        rcases h with h | h
        · exact absurd (by simpa using h) hk
        · exact h

theorem findEntry_none_of_not_any (entries : List (String × JVal)) (k : String)
    (h : entries.any (fun p => p.1 == k) = false) : findEntry entries k = none := by
  induction entries with
  | nil => rfl
  | cons p t ih =>
      simp only [List.any_cons, Bool.or_eq_false_iff] at h
      rw [findEntry_cons, if_neg (by simpa using h.1)]
      exact ih h.2

theorem findEntry_mapSet (t : List (String × JVal)) (c : String) (v : JVal) (k : String) :
    findEntry (t.map (fun p => if p.1 == c then (c, v) else p)) k =
      (findEntry t k).map (fun x => if k = c then v else x) := by
  induction t with
  | nil => rfl
  | cons p t ih =>
      rw [List.map_cons, findEntry_cons, findEntry_cons]
      by_cases hp : p.1 = c
      · have hhead : (if (p.1 == c) = true then (c, v) else p) = (c, v) :=
          if_pos (by simpa using hp)
        rw [hhead]
        by_cases hck : c = k
        · rw [if_pos hck, if_pos (hp.trans hck), Option.map_some', if_pos hck.symm]
        · rw [if_neg hck, if_neg (fun h => hck (hp.symm.trans h)), ih]
      · have hhead : (if (p.1 == c) = true then (c, v) else p) = p :=
          if_neg (by simpa using hp)
        rw [hhead]
        by_cases hk : p.1 = k
        · rw [if_pos hk, if_pos hk, Option.map_some',
            if_neg (fun h : k = c => hp (hk.trans h))]
        · rw [if_neg hk, if_neg hk, ih]

theorem findEntry_entryOrInsert (entries : List (String × JVal)) (c : String) (v : JVal)
    (k : String) :
    findEntry (entryOrInsert entries c v) k =
      if k = c then some ((findEntry entries c).getD v) else findEntry entries k := by
  unfold entryOrInsert
  by_cases hc : entries.any (fun p => p.1 == c) = true
  · rw [if_pos hc]
    by_cases hk : k = c
    · subst hk
      obtain ⟨x, hx⟩ := Option.isSome_iff_exists.mp (findEntry_isSome_of_any entries k hc)
      rw [if_pos rfl, hx]
      rfl
    · rw [if_neg hk]
  · rw [if_neg hc]
    have hfalse : entries.any (fun p => p.1 == c) = false := by
      cases h2 : entries.any (fun p => p.1 == c) with
      | false => rfl
      | true => exact absurd h2 hc
    have hnone : findEntry entries c = none := findEntry_none_of_not_any entries c hfalse
    rw [findEntry_append]
    by_cases hk : k = c
    · subst hk
      rw [hnone]
      simp [findEntry_cons]
    · rw [if_neg hk]
      cases hfk : findEntry entries k with
      | some x => rfl
      | none =>
          rw [findEntry_cons, if_neg (fun h => hk h.symm), findEntry_nil]

theorem findEntry_setEntry (entries : List (String × JVal)) (c : String) (v : JVal)
    (k : String) :
    findEntry (setEntry entries c v) k =
      if k = c then some v else findEntry entries k := by
  unfold setEntry
  by_cases hc : entries.any (fun p => p.1 == c) = true
  · rw [if_pos hc, findEntry_mapSet]
    by_cases hk : k = c
    · rw [if_pos hk]
      subst hk
      obtain ⟨x, hx⟩ := Option.isSome_iff_exists.mp (findEntry_isSome_of_any entries k hc)
      rw [hx, Option.map_some', if_pos rfl]
    · rw [if_neg hk]
      cases hfk : findEntry entries k with
      | some x => rw [Option.map_some', if_neg hk]
      | none => rfl
  · rw [if_neg hc]
    have hfalse : entries.any (fun p => p.1 == c) = false := by
      cases h2 : entries.any (fun p => p.1 == c) with
      | false => rfl
      | true => exact absurd h2 hc
    have hnone : findEntry entries c = none := findEntry_none_of_not_any entries c hfalse
    rw [findEntry_append]
    by_cases hk : k = c
    · subst hk
      rw [hnone]
      simp [findEntry_cons]
    · rw [if_neg hk]
      cases hfk : findEntry entries k with
      | some x => rfl
      | none =>
          rw [findEntry_cons, if_neg (fun h => hk h.symm), findEntry_nil]

theorem lookupPath_obj_cons (entries : List (String × JVal)) (k : String)
    (rest : List String) :
    lookupPath (.obj entries) (k :: rest) =
      match findEntry entries k with
      | none => none
      | some child => lookupPath child rest := rfl

theorem recursiveAdd_str (c : String) (rest : List String) (s value : String) :
    recursiveAdd (c :: rest) (.str s) value = none := by
  cases rest <;> rfl

theorem recursiveAdd_step (c c2 : String) (rest2 : List String)
    (entries : List (String × JVal)) (value : String) :
    recursiveAdd (c :: c2 :: rest2) (.obj entries) value =
      match recursiveAdd (c2 :: rest2) ((findEntry entries c).getD (.obj [])) value with
      | none => none
      | some child => some (.obj (setEntry entries c child)) := rfl

theorem recursiveAdd_isSome (value : String) :
    ∀ (q : List String), q ≠ [] → ∀ entries : List (String × JVal),
      (∀ p, pathLtB p q = true → ¬ StrLeafAt (.obj entries) p) →
      (recursiveAdd q (.obj entries) value).isSome := by
  intro q
  induction q with
  | nil => exact fun hq => absurd rfl hq
  | cons c rest ih =>
      intro _ entries hsafe
      cases rest with
      | nil => rfl
      | cons c2 rest2 =>
          rw [recursiveAdd_step]
          cases hfind : findEntry entries c with
          | some ch =>
              cases ch with
              | str s =>
                  exact absurd ⟨s, by rw [lookupPath_obj_cons, hfind]; rfl⟩
                    (hsafe [c] (by simp [pathLtB]))
              | obj es =>
                  have hsafe2 : ∀ p, pathLtB p (c2 :: rest2) = true →
                      ¬ StrLeafAt (.obj es) p := by
                    intro p hp ⟨s, hs⟩
                    refine hsafe (c :: p) ?_ ⟨s, ?_⟩
                    · simp [pathLtB, hp]
                    · rw [lookupPath_obj_cons, hfind]
                      exact hs
                  obtain ⟨child, hch⟩ := Option.isSome_iff_exists.mp
                    (ih (by simp) es hsafe2)
                  simp only [Option.getD_some]
                  rw [hch]
                  rfl
          | none =>
              have hsafe2 : ∀ p, pathLtB p (c2 :: rest2) = true →
                  ¬ StrLeafAt (.obj ([] : List (String × JVal))) p :=
                fun p _ => strLeafAt_obj_nil p
              obtain ⟨child, hch⟩ := Option.isSome_iff_exists.mp
                (ih (by simp) [] hsafe2)
              simp only [Option.getD_none]
              rw [hch]
              rfl

theorem recursiveAdd_leaves :
    ∀ (q : List String) (entries : List (String × JVal)) (value : String) (v' : JVal),
      recursiveAdd q (.obj entries) value = some v' →
      ∀ p, StrLeafAt v' p → StrLeafAt (.obj entries) p ∨ p = q := by
  intro q
  induction q with
  | nil =>
      intro entries value v' h
      exact Option.noConfusion h
  | cons c rest ih =>
      intro entries value v' h p hp
      cases rest with
      | nil =>
          have hv : v' = .obj (entryOrInsert entries c (.str value)) :=
            (Option.some.inj h).symm
          subst hv
          cases p with
          | nil =>
              obtain ⟨s, hs⟩ := hp
              exact absurd (Option.some.inj hs) (fun hx => JVal.noConfusion hx)
          | cons k p2 =>
              obtain ⟨s, hs⟩ := hp
              rw [lookupPath_obj_cons, findEntry_entryOrInsert] at hs
              by_cases hk : k = c
              · rw [if_pos hk] at hs
                cases hfind : findEntry entries c with
                | some ch =>
                    rw [hfind] at hs
                    left
                    refine ⟨s, ?_⟩
                    rw [lookupPath_obj_cons]
                    subst hk
                    rw [hfind]
                    exact hs
                | none =>
                    rw [hfind] at hs
                    simp only [Option.getD_none] at hs
                    cases p2 with
                    | nil =>
                        right
                        rw [hk]
                    | cons x xs =>
                        exact Option.noConfusion hs
              · rw [if_neg hk] at hs
                left
                exact ⟨s, by rw [lookupPath_obj_cons]; exact hs⟩
      | cons c2 rest2 =>
          rw [recursiveAdd_step] at h
          cases hrec : recursiveAdd (c2 :: rest2) ((findEntry entries c).getD (.obj [])) value with
          | none =>
              rw [hrec] at h
              exact Option.noConfusion h
          | some child =>
              rw [hrec] at h
              have hv : v' = .obj (setEntry entries c child) := (Option.some.inj h).symm
              subst hv
              cases p with
              | nil =>
                  obtain ⟨s, hs⟩ := hp
                  exact absurd (Option.some.inj hs) (fun hx => JVal.noConfusion hx)
              | cons k p2 =>
                  obtain ⟨s, hs⟩ := hp
                  rw [lookupPath_obj_cons, findEntry_setEntry] at hs
                  by_cases hk : k = c
                  · rw [if_pos hk] at hs
                    cases hfind : findEntry entries c with
                    | some ch =>
                        cases ch with
                        | str s2 =>
                            rw [hfind] at hrec
                            simp only [Option.getD_some] at hrec
                            rw [recursiveAdd_str] at hrec
                            exact Option.noConfusion hrec
                        | obj es =>
                            rw [hfind] at hrec
                            simp only [Option.getD_some] at hrec
                            rcases ih es value child hrec p2 ⟨s, hs⟩ with hleft | hright
                            · left
                              obtain ⟨s2, hs2⟩ := hleft
                              refine ⟨s2, ?_⟩
                              rw [lookupPath_obj_cons]
                              subst hk
                              rw [hfind]
                              exact hs2
                            · right
                              rw [hk, hright]
                    | none =>
                        rw [hfind] at hrec
                        simp only [Option.getD_none] at hrec
                        rcases ih [] value child hrec p2 ⟨s, hs⟩ with hleft | hright
                        · exact absurd hleft (strLeafAt_obj_nil p2)
                        · right
                          rw [hk, hright]
                  · rw [if_neg hk] at hs
                    left
                    exact ⟨s, by rw [lookupPath_obj_cons]; exact hs⟩

theorem recursiveAdd_obj (q : List String) (entries : List (String × JVal)) (value : String)
    (v' : JVal) (h : recursiveAdd q (.obj entries) value = some v') :
    ∃ es, v' = .obj es := by
  cases q with
  | nil => exact Option.noConfusion h
  | cons c rest =>
      cases rest with
      | nil => exact ⟨_, (Option.some.inj h).symm⟩
      | cons c2 rest2 =>
          rw [recursiveAdd_step] at h
          cases hrec : recursiveAdd (c2 :: rest2) ((findEntry entries c).getD (.obj [])) value with
          | none =>
              rw [hrec] at h
              exact Option.noConfusion h
          | some child =>
              rw [hrec] at h
              exact ⟨_, (Option.some.inj h).symm⟩

theorem compileArgs_fold_isSome :
    ∀ (args : List (String × String)) (processed : List (List String))
      (entries : List (String × JVal)),
      (∀ p, StrLeafAt (.obj entries) p → p ∈ processed) →
      (∀ p ∈ processed, ∀ a ∈ args, pathLtB p (splitPath a.1) = false) →
      List.Pairwise (fun p q => pathLtB p q = false ∧ pathLtB q p = false)
        (args.map (fun a => splitPath a.1)) →
      (args.foldl (fun acc arg =>
        match acc with
        | none => none
        | some v => recursiveAdd (splitPath arg.1) v arg.2) (some (.obj entries))).isSome := by
  intro args
  induction args with
  | nil =>
      intro _ _ _ _ _
      rfl
  | cons a args2 ih =>
      intro processed entries hleaves hsep hpair
      have hq : splitPath a.1 ≠ [] := splitPath_ne_nil a.1
      have hsafe : ∀ p, pathLtB p (splitPath a.1) = true → ¬ StrLeafAt (.obj entries) p := by
        intro p hp hleaf
        have hmem := hleaves p hleaf
        have hfalse := hsep p hmem a (List.mem_cons_self a args2)
        rw [hp] at hfalse
        exact Bool.noConfusion hfalse
      obtain ⟨v', hv'⟩ := Option.isSome_iff_exists.mp
        (recursiveAdd_isSome a.2 (splitPath a.1) hq entries hsafe)
      obtain ⟨es, hes⟩ := recursiveAdd_obj _ entries a.2 v' hv'
      subst hes
      simp only [List.foldl_cons]
      rw [hv']
      rw [List.map_cons] at hpair
      have hpair2 := List.pairwise_cons.mp hpair
      refine ih (splitPath a.1 :: processed) es ?_ ?_ hpair2.2
      · intro p hp
        rcases recursiveAdd_leaves (splitPath a.1) entries a.2 _ hv' p hp with hl | hr
        · exact List.mem_cons_of_mem _ (hleaves p hl)
        · rw [hr]
          exact List.mem_cons_self _ _
      · intro p hp a2 ha2
        rcases List.mem_cons.mp hp with hphead | hptail
        · subst hphead
          exact (hpair2.1 (splitPath a2.1) (by
            simp only [List.mem_map]
            exact ⟨a2, ha2, rfl⟩)).1
        · exact hsep p hptail a2 (List.mem_cons_of_mem a ha2)

/-- C10: arg structuring is total under the precondition that no arg key's
dot-separated path is a strict prefix of another arg key's path — for every
args map (in iteration order) satisfying it, `compile_exec_args` returns a
value — while the violating map holding `a` before `a.b` drives the
`as_object_mut().unwrap()` into a string leaf and panics (modelled as
`none`). -/
theorem c10_arg_structuring :
    (∀ args : List (String × String),
        StrictPrefixFree (args.map (fun a => splitPath a.1)) →
        (compileExecArgs args).isSome) ∧
    compileExecArgs [("a", "x"), ("a.b", "y")] = none := by
  constructor
  · intro args hfree
    exact compileArgs_fold_isSome args [] []
      (fun p hp => absurd hp (strLeafAt_obj_nil p))
      (fun p hp => absurd hp (List.not_mem_nil p))
      hfree
  · unfold compileExecArgs
    rw [List.foldl_cons]
    dsimp only
    rw [splitPath_a]
    rw [show recursiveAdd ["a"] (.obj []) "x" = some (.obj [("a", JVal.str "x")]) from rfl]
    rw [List.foldl_cons]
    dsimp only
    rw [splitPath_ab]
    rw [show recursiveAdd ["a", "b"] (.obj [("a", JVal.str "x")]) "y" = none from rfl]
    rfl

/-- Witness for C10 at a prefix-free concrete args map. -/
theorem c10_witness :
    StrictPrefixFree ([("a", "x"), ("b", "y")].map (fun a => splitPath a.1)) ∧
    (compileExecArgs [("a", "x"), ("b", "y")]).isSome := by
  have hfree : StrictPrefixFree ([("a", "x"), ("b", "y")].map (fun a => splitPath a.1)) := by
    simp only [List.map_cons, List.map_nil]
    rw [splitPath_a, splitPath_b]
    unfold StrictPrefixFree
    decide
  exact ⟨hfree, (c10_arg_structuring).1 _ hfree⟩

/-! ## Planner stratification (`src/compiler.rs`, `Compiler::determine_order`) -/

/-- The slice of `workflow::Node` that `determine_order` consults. -/
structure WNode where
  pre : Option (List String)

/-- Model of `workflow.nodes`: the association list behind the `HashMap`. -/
abbrev WMap := List (String × WNode)

/-- Model of `self.workflow.nodes.get(&next)`. -/
def lookupWf (wf : WMap) (k : String) : Option WNode :=
  (wf.find? (fun p => p.1 == k)).map (·.2)

/-- The prerequisite list recorded for a node: `pre.clone()` when present,
`Vec::new()` otherwise (src/compiler.rs:196-201). -/
def preOf (n : WNode) : List String := n.pre.getD []

/-- An upper bound on any node's `pre` length, used as a termination
measure weight for the phase-1 worklist. -/
def preBound (wf : WMap) : Nat :=
  (wf.map (fun p => (preOf p.2).length)).sum + 1

theorem preOf_lt_preBound (wf : WMap) (k : String) (node : WNode)
    (h : lookupWf wf k = some node) : (preOf node).length < preBound wf := by
  unfold lookupWf at h
  cases hf : wf.find? (fun p => p.1 == k) with
  | none =>
      rw [hf] at h
      exact Option.noConfusion h
  | some p =>
      rw [hf] at h
      simp only [Option.map_some'] at h
      have hp : p ∈ wf := List.mem_of_find?_eq_some hf
      have hle : (preOf p.2).length ≤ (wf.map (fun q => (preOf q.2).length)).sum :=
        List.single_le_sum (fun x _ => Nat.zero_le x) _ (List.mem_map_of_mem _ hp)
      have hn : p.2 = node := Option.some.inj h
      unfold preBound
      rw [← hn]
      omega

theorem lookupWf_mem_keys (wf : WMap) (k : String) (node : WNode)
    (h : lookupWf wf k = some node) : k ∈ wf.map Prod.fst := by
  unfold lookupWf at h
  cases hf : wf.find? (fun p => p.1 == k) with
  | none =>
      rw [hf] at h
      exact Option.noConfusion h
  | some p =>
      have hp : p ∈ wf := List.mem_of_find?_eq_some hf
      have hk : p.1 = k := by
        have hfs := List.find?_some hf
        simpa using hfs
      rw [← hk]
      exact List.mem_map_of_mem _ hp

/-- Phase 1 of `determine_order` (src/compiler.rs:179-203): the worklist
traversal recording each traversed node's prerequisite list. `pendingRev`
is the `VecDeque` with its back at the head (the code pushes with `extend`
at the back and pops with `pop_back`); `seen` is the `seen` set and `acc`
the accumulated map as an association list. A traversed name missing from
the workflow fails with `NotFound`; in the code the name enters `seen`
just before the failing lookup, which is unobservable because the error
returns immediately. -/
def build (wf : WMap) : List String → Finset String → List (String × List String) →
    Except Err (List (String × List String))
  | [], _, acc => .ok acc
  | next :: pendingRev, seen, acc =>
      if hseen : next ∈ seen then build wf pendingRev seen acc
      else
        match hlook : lookupWf wf next with
        | none => .error (.notFound next)
        | some node =>
            build wf ((preOf node).reverse ++ pendingRev) (insert next seen)
              ((next, preOf node) :: acc)
termination_by pendingRev seen _ =>
  ((wf.map Prod.fst).toFinset \ seen).card * preBound wf + pendingRev.length
decreasing_by
  · simp only [List.length_cons]
    omega
  · have hmem : next ∈ (wf.map Prod.fst).toFinset :=
      List.mem_toFinset.mpr (lookupWf_mem_keys wf next node hlook)
    have hcard : ((wf.map Prod.fst).toFinset \ insert next seen).card <
        ((wf.map Prod.fst).toFinset \ seen).card := by
      apply Finset.card_lt_card
      constructor
      · intro x hx
        rw [Finset.mem_sdiff] at hx ⊢
        refine ⟨hx.1, fun hs => hx.2 (Finset.mem_insert_of_mem hs)⟩
      · intro hsub
        have hnext : next ∈ (wf.map Prod.fst).toFinset \ seen :=
          Finset.mem_sdiff.mpr ⟨hmem, hseen⟩
        have := hsub hnext
        rw [Finset.mem_sdiff] at this
        exact this.2 (Finset.mem_insert_self next seen)
    have hpre : (preOf node).length < preBound wf := preOf_lt_preBound wf next node hlook
    simp only [List.length_append, List.length_reverse, List.length_cons]
    calc ((wf.map Prod.fst).toFinset \ insert next seen).card * preBound wf +
          ((preOf node).length + pendingRev.length)
        < ((wf.map Prod.fst).toFinset \ insert next seen).card * preBound wf +
          (preBound wf + pendingRev.length) := by omega
      _ = (((wf.map Prod.fst).toFinset \ insert next seen).card + 1) * preBound wf +
          pendingRev.length := by ring
      _ ≤ ((wf.map Prod.fst).toFinset \ seen).card * preBound wf + pendingRev.length := by
          have : ((wf.map Prod.fst).toFinset \ insert next seen).card + 1 ≤
              ((wf.map Prod.fst).toFinset \ seen).card := hcard
          exact Nat.add_le_add_right (Nat.mul_le_mul_right _ this) _
      _ ≤ ((wf.map Prod.fst).toFinset \ seen).card * preBound wf +
          (pendingRev.length + 1) := by omega

/-- The leaf test of phase 2 (src/compiler.rs:210-220): an entry all of
whose prerequisites are already `seen`. -/
def isLeaf (seen : Finset String) (p : String × List String) : Bool :=
  p.2.all (fun v => decide (v ∈ seen))

/-- Phase 2 of `determine_order` (src/compiler.rs:205-233): repeatedly
drain the entries whose prerequisites are all seen; each drained key set
becomes the next stage (a `HashSet` in the code, a `Finset` here); an
iteration that drains nothing while entries remain fails with
`NodeRecursion`. -/
def stratify (mapAcc : List (String × List String)) (seen : Finset String) :
    Except Err (List (Finset String)) :=
  if hmap : mapAcc.length = 0 then .ok []
  else
    let leafs := mapAcc.filter (isLeaf seen)
    if hleafs : leafs.length = 0 then .error .nodeRecursion
    else
      let rest := mapAcc.filter (fun p => !(leafs.any (fun l => l.1 == p.1)))
      match stratify rest (seen ∪ (leafs.map Prod.fst).toFinset) with
      | .ok stages => .ok ((leafs.map Prod.fst).toFinset :: stages)
      | .error e => .error e
termination_by mapAcc.length
decreasing_by
  have hne : leafs ≠ [] := fun h => hleafs (by rw [h]; rfl)
  obtain ⟨l0, hl0⟩ := List.exists_mem_of_ne_nil leafs hne
  by_contra hcon
  have hge : (mapAcc.filter (fun p => !(leafs.any (fun l => l.1 == p.1)))).length =
      mapAcc.length :=
    Nat.le_antisymm (List.length_filter_le _ _) (Nat.le_of_not_lt hcon)
  have hall := List.filter_length_eq_length.mp hge
  have h0 := hall l0 (List.mem_of_mem_filter hl0)
  simp only [Bool.not_eq_true'] at h0
  have hany : leafs.any (fun l => l.1 == l0.1) = true :=
    List.any_eq_true.mpr ⟨l0, hl0, by simp⟩
  rw [hany] at h0
  exact Bool.noConfusion h0

/-- Model of `determine_order` (src/compiler.rs:178-234). `exec` is the target set
in the order `pending.extend(exec)` pushes it; phase 2 starts from a
cleared `seen`. -/
def determineOrder (wf : WMap) (exec : List String) : Except Err (List (Finset String)) :=
  match build wf exec.reverse ∅ [] with
  | .error e => .error e
  | .ok mapAcc => stratify mapAcc ∅

/-! Semantic notions for the stratification claims. -/

/-- A direct prerequisite edge of the workflow: `b ∈ pre(a)`. -/
inductive PreStep (wf : WMap) : String → String → Prop
  | mk {a b : String} (node : WNode) :
      lookupWf wf a = some node → b ∈ preOf node → PreStep wf a b

/-- Whether `n` lies in the prerequisite closure of the target set `S`. -/
inductive Reach (wf : WMap) (S : List String) : String → Prop
  | target (n : String) : n ∈ S → Reach wf S n
  | pre (m n : String) : Reach wf S m → PreStep wf m n → Reach wf S n

/-- The prerequisite closure of the target set exists in the workflow:
every reachable name resolves to a node. -/
def ClosureClosed (wf : WMap) (S : List String) : Prop :=
  ∀ n, Reach wf S n → (lookupWf wf n).isSome

/-- The prerequisite graph reachable from the target set has a cycle. -/
def HasReachableCycle (wf : WMap) (S : List String) : Prop :=
  ∃ a, Reach wf S a ∧ Relation.TransGen (PreStep wf) a a

theorem build_nil (wf : WMap) (seen : Finset String) (acc : List (String × List String)) :
    build wf [] seen acc = .ok acc := by
  unfold build
  rfl

theorem build_seen (wf : WMap) (next : String) (pendingRev : List String)
    (seen : Finset String) (acc : List (String × List String)) (h : next ∈ seen) :
    build wf (next :: pendingRev) seen acc = build wf pendingRev seen acc := by
  unfold build
  rw [dif_pos h]
  rw [build.eq_def]

theorem build_notfound (wf : WMap) (next : String) (pendingRev : List String)
    (seen : Finset String) (acc : List (String × List String)) (h1 : next ∉ seen)
    (h2 : lookupWf wf next = none) :
    build wf (next :: pendingRev) seen acc = .error (.notFound next) := by
  unfold build
  rw [dif_neg h1]
  split
  · rfl
  · rename_i node hnode
    rw [h2] at hnode
    exact Option.noConfusion hnode

theorem build_step (wf : WMap) (next : String) (pendingRev : List String)
    (seen : Finset String) (acc : List (String × List String)) (h1 : next ∉ seen)
    (node : WNode) (h2 : lookupWf wf next = some node) :
    build wf (next :: pendingRev) seen acc =
      build wf ((preOf node).reverse ++ pendingRev) (insert next seen)
        ((next, preOf node) :: acc) := by
  unfold build
  rw [dif_neg h1]
  split
  · rename_i hnone
    rw [h2] at hnone
    exact Option.noConfusion hnone
  · rename_i node2 hnode
    rw [h2] at hnode
    rw [Option.some.inj hnode]
    rw [build.eq_def]

/-- Phase-1 correctness: under a closed prerequisite closure, the worklist
traversal succeeds and its accumulated map holds exactly the reachable
nodes, each with its prerequisite list, with no duplicate keys, and closed
under prerequisites. -/
theorem build_spec (wf : WMap) (S : List String) (hcl : ClosureClosed wf S) :
    ∀ (pendingRev : List String) (seen : Finset String) (acc : List (String × List String)),
      (∀ k ∈ pendingRev, Reach wf S k) →
      (∀ k ∈ seen, Reach wf S k) →
      (∀ p ∈ acc, ∃ node, lookupWf wf p.1 = some node ∧ p.2 = preOf node) →
      (∀ k, k ∈ seen ↔ k ∈ acc.map Prod.fst) →
      (acc.map Prod.fst).Nodup →
      (∀ p ∈ acc, ∀ b ∈ p.2, b ∈ seen ∨ b ∈ pendingRev) →
      (∀ s ∈ S, s ∈ seen ∨ s ∈ pendingRev) →
      ∃ acc', build wf pendingRev seen acc = .ok acc' ∧
        (∀ p ∈ acc', ∃ node, lookupWf wf p.1 = some node ∧ p.2 = preOf node) ∧
        (∀ k, k ∈ acc'.map Prod.fst ↔ Reach wf S k) ∧
        (acc'.map Prod.fst).Nodup ∧
        (∀ p ∈ acc', ∀ b ∈ p.2, b ∈ acc'.map Prod.fst) := by
  intro pendingRev seen acc
  induction pendingRev, seen, acc using build.induct wf with
  | case1 seen acc =>
      intro _hpend hseenR hI3 hseeniff hnd hI5 hS
      refine ⟨acc, build_nil wf seen acc, hI3, ?_, hnd, ?_⟩
      · have hreach_seen : ∀ k, Reach wf S k → k ∈ seen := by
          intro k hk
          induction hk with
          | target n hn =>
              rcases hS n hn with h | h
              · exact h
              · exact absurd h (List.not_mem_nil n)
          | pre m n hm hstep ihm =>
              have hmkeys : m ∈ acc.map Prod.fst := (hseeniff m).mp ihm
              obtain ⟨p, hp, hp1⟩ := List.mem_map.mp hmkeys
              obtain ⟨node1, hl1, hpre1⟩ := hI3 p hp
              cases hstep with
              | mk node2 hl2 hb =>
                  rw [hp1, hl2] at hl1
                  have hnode : node1 = node2 := (Option.some.inj hl1).symm
                  have hnp : n ∈ p.2 := by
                    rw [hpre1, hnode]
                    exact hb
                  rcases hI5 p hp n hnp with h | h
                  · exact h
                  · exact absurd h (List.not_mem_nil n)
        intro k
        constructor
        · intro hk
          exact hseenR k ((hseeniff k).mpr hk)
        · intro hk
          exact (hseeniff k).mp (hreach_seen k hk)
      · intro p hp b hb
        rcases hI5 p hp b hb with h | h
        · exact (hseeniff b).mp h
        · exact absurd h (List.not_mem_nil b)
  | case2 next pendingRev seen acc hseen ih =>
      intro hpend hseenR hI3 hseeniff hnd hI5 hS
      rw [build_seen wf next pendingRev seen acc hseen]
      refine ih (fun k hk => hpend k (List.mem_cons_of_mem next hk)) hseenR hI3 hseeniff hnd
        ?_ ?_
      · intro p hp b hb
        rcases hI5 p hp b hb with h | h
        · exact Or.inl h
        · rcases List.mem_cons.mp h with rfl | h2
          · exact Or.inl hseen
          · exact Or.inr h2
      · intro t ht
        rcases hS t ht with h | h
        · exact Or.inl h
        · rcases List.mem_cons.mp h with rfl | h2
          · exact Or.inl hseen
          · exact Or.inr h2
  | case3 next pendingRev seen acc hseen hlook =>
      intro hpend _hseenR _hI3 _hseeniff _hnd _hI5 _hS
      have hreach : Reach wf S next := hpend next (List.mem_cons_self next pendingRev)
      have hsome := hcl next hreach
      rw [hlook] at hsome
      simp at hsome
  | case4 next pendingRev seen acc hseen node hlook ih =>
      intro hpend hseenR hI3 hseeniff hnd hI5 hS
      rw [build_step wf next pendingRev seen acc hseen node hlook]
      have hreach_next : Reach wf S next := hpend next (List.mem_cons_self next pendingRev)
      refine ih ?_ ?_ ?_ ?_ ?_ ?_ ?_
      · intro k hk
        rcases List.mem_append.mp hk with h | h
        · exact Reach.pre next k hreach_next
            (PreStep.mk node hlook (List.mem_reverse.mp h))
        · exact hpend k (List.mem_cons_of_mem next h)
      · intro k hk
        rcases Finset.mem_insert.mp hk with rfl | h
        · exact hreach_next
        · exact hseenR k h
      · intro p hp
        rcases List.mem_cons.mp hp with rfl | h
        · exact ⟨node, hlook, rfl⟩
        · exact hI3 p h
      · intro k
        constructor
        · intro hk
          rcases Finset.mem_insert.mp hk with rfl | h
          · exact List.mem_cons_self _ _
          · exact List.mem_cons_of_mem _ ((hseeniff k).mp h)
        · intro hk
          rcases List.mem_cons.mp hk with rfl | h
          · exact Finset.mem_insert_self _ _
          · exact Finset.mem_insert_of_mem ((hseeniff k).mpr h)
      · refine List.Nodup.cons ?_ hnd
        intro hmem
        exact hseen ((hseeniff next).mpr hmem)
      · intro p hp b hb
        rcases List.mem_cons.mp hp with rfl | h
        · exact Or.inr (List.mem_append.mpr (Or.inl (List.mem_reverse.mpr hb)))
        · rcases hI5 p h b hb with h2 | h2
          · exact Or.inl (Finset.mem_insert_of_mem h2)
          · rcases List.mem_cons.mp h2 with rfl | h3
            · exact Or.inl (Finset.mem_insert_self _ _)
            · exact Or.inr (List.mem_append.mpr (Or.inr h3))
      · intro t ht
        rcases hS t ht with h | h
        · exact Or.inl (Finset.mem_insert_of_mem h)
        · rcases List.mem_cons.mp h with rfl | h2
          · exact Or.inl (Finset.mem_insert_self _ _)
          · exact Or.inr (List.mem_append.mpr (Or.inr h2))

/-- The prerequisite edges recorded in a (remaining) map, restricted to
targets still present in the map. -/
def EdgeOf (mapAcc : List (String × List String)) (x y : String) : Prop :=
  ∃ ps, (x, ps) ∈ mapAcc ∧ y ∈ ps ∧ y ∈ mapAcc.map Prod.fst

/-- In a finite vertex set where every vertex has a successor inside the
set, following successors must eventually revisit a vertex, yielding a
cycle. -/
theorem cycle_of_successors {r : String → String → Prop} (keys : Finset String)
    (hsucc : ∀ k ∈ keys, ∃ b ∈ keys, r k b) :
    ∀ (n : Nat) (visited : Finset String) (c : String),
      (keys \ visited).card = n → c ∈ keys → c ∉ visited →
      (∀ v ∈ visited, Relation.TransGen r v c) →
      ∃ a, Relation.TransGen r a a := by
  intro n
  induction n using Nat.strong_induction_on with
  | _ n ih =>
      intro visited c hcard hck hcv hvis
      obtain ⟨b, hbk, hrb⟩ := hsucc c hck
      by_cases hbv : b ∈ visited
      · exact ⟨b, (hvis b hbv).trans (Relation.TransGen.single hrb)⟩
      · by_cases hbc : b = c
        · subst hbc
          exact ⟨b, Relation.TransGen.single hrb⟩
        · have hclt : (keys \ insert c visited).card < n := by
            rw [← hcard]
            apply Finset.card_lt_card
            constructor
            · intro x hx
              rw [Finset.mem_sdiff] at hx ⊢
              exact ⟨hx.1, fun hs => hx.2 (Finset.mem_insert_of_mem hs)⟩
            · intro hsub
              have hc2 : c ∈ keys \ visited := Finset.mem_sdiff.mpr ⟨hck, hcv⟩
              have := hsub hc2
              rw [Finset.mem_sdiff] at this
              exact this.2 (Finset.mem_insert_self c visited)
          refine ih _ hclt (insert c visited) b rfl hbk ?_ ?_
          · intro hmem
            rcases Finset.mem_insert.mp hmem with h | h
            · exact hbc h
            · exact hbv h
          · intro v hv
            rcases Finset.mem_insert.mp hv with rfl | h
            · exact Relation.TransGen.single hrb
            · exact (hvis v h).trans (Relation.TransGen.single hrb)

/-- Progress of the drain loop: with all recorded prerequisites either seen
or still present, and no cycle among the present entries, a non-empty map
has a leaf. -/
theorem stratify_progress (mapAcc : List (String × List String)) (seen : Finset String)
    (hne : mapAcc ≠ [])
    (hclosed : ∀ p ∈ mapAcc, ∀ b ∈ p.2, b ∈ seen ∨ b ∈ mapAcc.map Prod.fst)
    (hacyc : ¬ ∃ a, Relation.TransGen (EdgeOf mapAcc) a a) :
    ∃ p ∈ mapAcc, isLeaf seen p = true := by
  by_contra hno
  push_neg at hno
  have hsucc : ∀ k ∈ (mapAcc.map Prod.fst).toFinset,
      ∃ b ∈ (mapAcc.map Prod.fst).toFinset, EdgeOf mapAcc k b := by
    intro k hk
    obtain ⟨p, hp, hp1⟩ := List.mem_map.mp (List.mem_toFinset.mp hk)
    have hleaf : isLeaf seen p = false := by
      cases h2 : isLeaf seen p with
      | false => rfl
      | true => exact absurd h2 (hno p hp)
    unfold isLeaf at hleaf
    obtain ⟨b, hb, hbf⟩ := List.all_eq_false.mp hleaf
    have hbseen : b ∉ seen := by simpa using hbf
    have hbkeys : b ∈ mapAcc.map Prod.fst := by
      rcases hclosed p hp b hb with h | h
      · exact absurd h hbseen
      · exact h
    refine ⟨b, List.mem_toFinset.mpr hbkeys, p.2, ?_, hb, hbkeys⟩
    rw [← hp1]
    exact hp
  obtain ⟨p0, hp0⟩ := List.exists_mem_of_ne_nil mapAcc hne
  have hk0 : p0.1 ∈ (mapAcc.map Prod.fst).toFinset :=
    List.mem_toFinset.mpr (List.mem_map_of_mem _ hp0)
  exact hacyc (cycle_of_successors (mapAcc.map Prod.fst).toFinset hsucc
    ((mapAcc.map Prod.fst).toFinset \ ∅).card ∅ p0.1 rfl hk0 (Finset.not_mem_empty _)
    (fun v hv => absurd hv (Finset.not_mem_empty v)))

/-- Uniqueness of association-list values under distinct keys. -/
theorem assoc_unique (l : List (String × List String))
    (hnd : (l.map Prod.fst).Nodup) {k : String} {v w : List String}
    (hv : (k, v) ∈ l) (hw : (k, w) ∈ l) : v = w := by
  induction l with
  | nil => exact absurd hv (List.not_mem_nil _)
  | cons p t ih =>
      rw [List.map_cons] at hnd
      have hnd2 := List.nodup_cons.mp hnd
      rcases List.mem_cons.mp hv with rfl | hv2
      · rcases List.mem_cons.mp hw with hw1 | hw2
        · exact (congrArg Prod.snd hw1).symm
        · exact absurd (by simpa using List.mem_map_of_mem Prod.fst hw2) hnd2.1
      · rcases List.mem_cons.mp hw with rfl | hw2
        · exact absurd (by simpa using List.mem_map_of_mem Prod.fst hv2) hnd2.1
        · exact ih hnd2.2 hv2 hw2

theorem stratify_done (mapAcc : List (String × List String)) (seen : Finset String)
    (hmap : mapAcc.length = 0) : stratify mapAcc seen = .ok [] := by
  unfold stratify
  rw [dif_pos hmap]

theorem stratify_stuck_eq (mapAcc : List (String × List String)) (seen : Finset String)
    (hmap : ¬ mapAcc.length = 0) (hleafs : (mapAcc.filter (isLeaf seen)).length = 0) :
    stratify mapAcc seen = .error .nodeRecursion := by
  unfold stratify
  rw [dif_neg hmap, dif_pos hleafs]

theorem stratify_step (mapAcc : List (String × List String)) (seen : Finset String)
    (hmap : ¬ mapAcc.length = 0)
    (hleafs : ¬ (mapAcc.filter (isLeaf seen)).length = 0) :
    stratify mapAcc seen =
      match stratify
          (mapAcc.filter
            (fun p => !((mapAcc.filter (isLeaf seen)).any (fun l => l.1 == p.1))))
          (seen ∪ ((mapAcc.filter (isLeaf seen)).map Prod.fst).toFinset) with
      | .ok stages =>
          .ok (((mapAcc.filter (isLeaf seen)).map Prod.fst).toFinset :: stages)
      | .error e => .error e := by
  conv_lhs => rw [stratify]
  rw [dif_neg hmap, dif_neg hleafs]

/-- Phase-2 correctness: with distinct keys, prerequisites closed within
`seen` and the map, keys unseen, and no cycle among the recorded edges,
the drain loop succeeds; the stages partition exactly the map's keys, and
every prerequisite of a node in stage `i` is either pre-seen or placed in a
strictly earlier stage. -/
theorem stratify_spec :
    ∀ (mapAcc : List (String × List String)) (seen : Finset String),
      (mapAcc.map Prod.fst).Nodup →
      (∀ p ∈ mapAcc, ∀ b ∈ p.2, b ∈ seen ∨ b ∈ mapAcc.map Prod.fst) →
      (∀ k ∈ mapAcc.map Prod.fst, k ∉ seen) →
      (¬ ∃ a, Relation.TransGen (EdgeOf mapAcc) a a) →
      ∃ stages, stratify mapAcc seen = .ok stages ∧
        (∀ n, (∃ st ∈ stages, n ∈ st) ↔ n ∈ mapAcc.map Prod.fst) ∧
        (∀ i, ∀ hi : i < stages.length, ∀ a ∈ stages.get ⟨i, hi⟩,
          ∀ ps, (a, ps) ∈ mapAcc → ∀ b ∈ ps,
            b ∈ seen ∨ ∃ j, ∃ hj : j < stages.length, j < i ∧ b ∈ stages.get ⟨j, hj⟩) ∧
        List.Pairwise (fun s t => ∀ n ∈ s, n ∉ t) stages ∧
        (∀ st ∈ stages, ∀ n ∈ st, n ∉ seen) := by
  intro mapAcc seen
  induction mapAcc, seen using stratify.induct with
  | case1 mapAcc seen hmap =>
      intro _ _ _ _
      have hnil : mapAcc = [] := List.length_eq_zero.mp hmap
      subst hnil
      refine ⟨[], stratify_done [] seen rfl, ?_, ?_, List.Pairwise.nil, ?_⟩
      · intro n
        simp
      · intro i hi
        exact absurd hi (by simp)
      · intro st hst
        exact absurd hst (List.not_mem_nil st)
  | case2 mapAcc seen hmap leafs hleafs =>
      intro _hnd hclosed _hunseen hacyc
      obtain ⟨p, hp, hpl⟩ := stratify_progress mapAcc seen
        (fun h => hmap (by rw [h]; rfl)) hclosed hacyc
      have hpm : p ∈ mapAcc.filter (isLeaf seen) := List.mem_filter.mpr ⟨hp, hpl⟩
      have hld : leafs = mapAcc.filter (isLeaf seen) := rfl
      rw [← hld, List.length_eq_zero.mp hleafs] at hpm
      exact absurd hpm (List.not_mem_nil p)
  | case3 mapAcc seen hmap leafs hleafs rest stages0 hok ih =>
      intro hnd hclosed hunseen hacyc
      have hld : leafs = mapAcc.filter (isLeaf seen) := rfl
      have hrd : rest = mapAcc.filter (fun p => !(leafs.any (fun l => l.1 == p.1))) := rfl
      set leafKeys := (leafs.map Prod.fst).toFinset with hlk_def
      -- invariants for the recursive call
      have hrest_sub : ∀ p ∈ rest, p ∈ mapAcc := fun p hp => List.mem_of_mem_filter hp
      have hleafs_sub : ∀ p ∈ leafs, p ∈ mapAcc := fun p hp => List.mem_of_mem_filter hp
      have hkeys_rest_sub : ∀ k ∈ rest.map Prod.fst, k ∈ mapAcc.map Prod.fst := by
        intro k hk
        obtain ⟨p, hp, hp1⟩ := List.mem_map.mp hk
        rw [← hp1]
        exact List.mem_map_of_mem _ (hrest_sub p hp)
      have hnd2 : (rest.map Prod.fst).Nodup :=
        List.Nodup.sublist (List.Sublist.map Prod.fst (List.filter_sublist mapAcc)) hnd
      have hpartition : ∀ k, k ∈ mapAcc.map Prod.fst ↔ k ∈ leafKeys ∨ k ∈ rest.map Prod.fst := by
        intro k
        constructor
        · intro hk
          obtain ⟨p, hp, hp1⟩ := List.mem_map.mp hk
          cases hfilter : (!(leafs.any (fun l => l.1 == p.1))) with
          | true =>
              right
              rw [← hp1]
              exact List.mem_map_of_mem _ (List.mem_filter.mpr ⟨hp, hfilter⟩)
          | false =>
              left
              have hany : leafs.any (fun l => l.1 == p.1) = true := by
                simpa using hfilter
              obtain ⟨l, hl, hlp⟩ := List.any_eq_true.mp hany
              rw [hlk_def, List.mem_toFinset]
              have : l.1 = p.1 := by simpa using hlp
              rw [← hp1, ← this]
              exact List.mem_map_of_mem _ hl
        · intro hk
          rcases hk with hk | hk
          · rw [hlk_def, List.mem_toFinset] at hk
            obtain ⟨l, hl, hl1⟩ := List.mem_map.mp hk
            rw [← hl1]
            exact List.mem_map_of_mem _ (hleafs_sub l hl)
          · exact hkeys_rest_sub k hk
      have hdisj_lk_rest : ∀ k ∈ rest.map Prod.fst, k ∉ leafKeys := by
        intro k hk hlk
        obtain ⟨p, hp, hp1⟩ := List.mem_map.mp hk
        have hpred := (List.mem_filter.mp hp).2
        rw [hlk_def, List.mem_toFinset] at hlk
        obtain ⟨l, hl, hl1⟩ := List.mem_map.mp hlk
        have hany : leafs.any (fun l2 => l2.1 == p.1) = true := by
          refine List.any_eq_true.mpr ⟨l, hl, ?_⟩
          rw [hp1, hl1]
          exact beq_self_eq_true k
        rw [hany] at hpred
        exact Bool.noConfusion hpred
      have hclosed2 : ∀ p ∈ rest, ∀ b ∈ p.2, b ∈ seen ∪ leafKeys ∨ b ∈ rest.map Prod.fst := by
        intro p hp b hb
        rcases hclosed p (hrest_sub p hp) b hb with h | h
        · exact Or.inl (Finset.mem_union_left _ h)
        · rcases (hpartition b).mp h with h2 | h2
          · exact Or.inl (Finset.mem_union_right _ h2)
          · exact Or.inr h2
      have hunseen2 : ∀ k ∈ rest.map Prod.fst, k ∉ seen ∪ leafKeys := by
        intro k hk hmem
        rcases Finset.mem_union.mp hmem with h | h
        · exact hunseen k (hkeys_rest_sub k hk) h
        · exact hdisj_lk_rest k hk h
      have hacyc2 : ¬ ∃ a, Relation.TransGen (EdgeOf rest) a a := by
        intro ⟨a, ha⟩
        refine hacyc ⟨a, Relation.TransGen.mono ?_ ha⟩
        intro x y ⟨ps, hpsm, hyps, hykeys⟩
        exact ⟨ps, hrest_sub _ hpsm, hyps, hkeys_rest_sub y hykeys⟩
      obtain ⟨stages1, hok1, hiff1, hord1, hpw1, hns1⟩ := ih hnd2 hclosed2 hunseen2 hacyc2
      rw [hok] at hok1
      have hstages : stages1 = stages0 := (Except.ok.inj hok1).symm
      subst hstages
      refine ⟨leafKeys :: stages1, ?_, ?_, ?_, ?_, ?_⟩
      · rw [stratify_step mapAcc seen hmap (by rw [← hld]; exact hleafs), ← hld, ← hrd, hok]
      · intro n
        constructor
        · intro ⟨st, hst, hnst⟩
          rcases List.mem_cons.mp hst with rfl | h
          · exact (hpartition n).mpr (Or.inl hnst)
          · exact (hpartition n).mpr (Or.inr ((hiff1 n).mp ⟨st, h, hnst⟩))
        · intro hn
          rcases (hpartition n).mp hn with h | h
          · exact ⟨leafKeys, List.mem_cons_self _ _, h⟩
          · obtain ⟨st, hst, hnst⟩ := (hiff1 n).mpr h
            exact ⟨st, List.mem_cons_of_mem _ hst, hnst⟩
      · intro i hi a ha ps hps b hb
        cases i with
        | zero =>
            have halk : a ∈ leafKeys := ha
            rw [hlk_def, List.mem_toFinset] at halk
            obtain ⟨l, hl, hl1⟩ := List.mem_map.mp halk
            have hlm : (a, l.2) ∈ mapAcc := by
              rw [← hl1]
              exact hleafs_sub l hl
            have hps2 : ps = l.2 := assoc_unique mapAcc hnd hps hlm
            have hleafl : isLeaf seen l = true := (List.mem_filter.mp hl).2
            unfold isLeaf at hleafl
            have hbs : b ∈ seen := by
              have := List.all_eq_true.mp hleafl b (by rw [← hps2]; exact hb)
              simpa using this
            exact Or.inl hbs
        | succ i2 =>
            have ha2 : a ∈ stages1.get ⟨i2, Nat.lt_of_succ_lt_succ hi⟩ := ha
            have hakeys : a ∈ rest.map Prod.fst :=
              (hiff1 a).mp ⟨_, stages1.get_mem _ _, ha2⟩
            obtain ⟨q, hq, hq1⟩ := List.mem_map.mp hakeys
            have hqm : (a, q.2) ∈ rest := by
              rw [← hq1]
              exact hq
            have hps2 : ps = q.2 := assoc_unique mapAcc hnd hps (hrest_sub _ hqm)
            have hres := hord1 i2 (Nat.lt_of_succ_lt_succ hi) a ha2 q.2 hqm b
              (by rw [← hps2]; exact hb)
            rcases hres with h | ⟨j, hj, hji, hbj⟩
            · rcases Finset.mem_union.mp h with h2 | h2
              · exact Or.inl h2
              · exact Or.inr ⟨0, Nat.succ_pos _, Nat.succ_pos _, h2⟩
            · exact Or.inr ⟨j + 1, Nat.succ_lt_succ hj, Nat.succ_lt_succ hji, hbj⟩
      · refine List.Pairwise.cons ?_ hpw1
        intro st hst n hn hnst
        have := hns1 st hst n hnst
        exact this (Finset.mem_union_right _ hn)
      · intro st hst n hn
        rcases List.mem_cons.mp hst with rfl | h
        · rw [hlk_def, List.mem_toFinset] at hn
          obtain ⟨l, hl, hl1⟩ := List.mem_map.mp hn
          refine hunseen n ?_
          rw [← hl1]
          exact List.mem_map_of_mem _ (hleafs_sub l hl)
        · intro hns
          exact hns1 st h n hn (Finset.mem_union_left _ hns)
  | case4 mapAcc seen hmap leafs hleafs rest e herr ih =>
      intro hnd hclosed hunseen hacyc
      have hld : leafs = mapAcc.filter (isLeaf seen) := rfl
      have hrd : rest = mapAcc.filter (fun p => !(leafs.any (fun l => l.1 == p.1))) := rfl
      set leafKeys := (leafs.map Prod.fst).toFinset with hlk_def
      have hrest_sub : ∀ p ∈ rest, p ∈ mapAcc := fun p hp => List.mem_of_mem_filter hp
      have hleafs_sub : ∀ p ∈ leafs, p ∈ mapAcc := fun p hp => List.mem_of_mem_filter hp
      have hkeys_rest_sub : ∀ k ∈ rest.map Prod.fst, k ∈ mapAcc.map Prod.fst := by
        intro k hk
        obtain ⟨p, hp, hp1⟩ := List.mem_map.mp hk
        rw [← hp1]
        exact List.mem_map_of_mem _ (hrest_sub p hp)
      have hnd2 : (rest.map Prod.fst).Nodup :=
        List.Nodup.sublist (List.Sublist.map Prod.fst (List.filter_sublist mapAcc)) hnd
      have hpartition : ∀ k, k ∈ mapAcc.map Prod.fst ↔ k ∈ leafKeys ∨ k ∈ rest.map Prod.fst := by
        intro k
        constructor
        · intro hk
          obtain ⟨p, hp, hp1⟩ := List.mem_map.mp hk
          cases hfilter : (!(leafs.any (fun l => l.1 == p.1))) with
          | true =>
              right
              rw [← hp1]
              exact List.mem_map_of_mem _ (List.mem_filter.mpr ⟨hp, hfilter⟩)
          | false =>
              left
              have hany : leafs.any (fun l => l.1 == p.1) = true := by
                simpa using hfilter
              obtain ⟨l, hl, hlp⟩ := List.any_eq_true.mp hany
              rw [hlk_def, List.mem_toFinset]
              have : l.1 = p.1 := by simpa using hlp
              rw [← hp1, ← this]
              exact List.mem_map_of_mem _ hl
        · intro hk
          rcases hk with hk | hk
          · rw [hlk_def, List.mem_toFinset] at hk
            obtain ⟨l, hl, hl1⟩ := List.mem_map.mp hk
            rw [← hl1]
            exact List.mem_map_of_mem _ (hleafs_sub l hl)
          · exact hkeys_rest_sub k hk
      have hdisj_lk_rest : ∀ k ∈ rest.map Prod.fst, k ∉ leafKeys := by
        intro k hk hlk
        obtain ⟨p, hp, hp1⟩ := List.mem_map.mp hk
        have hpred := (List.mem_filter.mp hp).2
        rw [hlk_def, List.mem_toFinset] at hlk
        obtain ⟨l, hl, hl1⟩ := List.mem_map.mp hlk
        have hany : leafs.any (fun l2 => l2.1 == p.1) = true := by
          refine List.any_eq_true.mpr ⟨l, hl, ?_⟩
          rw [hp1, hl1]
          exact beq_self_eq_true k
        rw [hany] at hpred
        exact Bool.noConfusion hpred
      have hclosed2 : ∀ p ∈ rest, ∀ b ∈ p.2, b ∈ seen ∪ leafKeys ∨ b ∈ rest.map Prod.fst := by
        intro p hp b hb
        rcases hclosed p (hrest_sub p hp) b hb with h | h
        · exact Or.inl (Finset.mem_union_left _ h)
        · rcases (hpartition b).mp h with h2 | h2
          · exact Or.inl (Finset.mem_union_right _ h2)
          · exact Or.inr h2
      have hunseen2 : ∀ k ∈ rest.map Prod.fst, k ∉ seen ∪ leafKeys := by
        intro k hk hmem
        rcases Finset.mem_union.mp hmem with h | h
        · exact hunseen k (hkeys_rest_sub k hk) h
        · exact hdisj_lk_rest k hk h
      have hacyc2 : ¬ ∃ a, Relation.TransGen (EdgeOf rest) a a := by
        intro ⟨a, ha⟩
        refine hacyc ⟨a, Relation.TransGen.mono ?_ ha⟩
        intro x y ⟨ps, hpsm, hyps, hykeys⟩
        exact ⟨ps, hrest_sub _ hpsm, hyps, hkeys_rest_sub y hykeys⟩
      obtain ⟨stages1, hok1, _, _, _, _⟩ := ih hnd2 hclosed2 hunseen2 hacyc2
      rw [herr] at hok1
      exact Except.noConfusion hok1

/-- C2: for every workflow and target set whose prerequisite closure exists
and is acyclic, `determine_order` succeeds; the stages flattened are exactly
the transitive closure of the target set over `pre` (hence a superset of
the targets); whenever `b ∈ pre(a)` and `a` is planned, `b` sits in a
strictly earlier stage; and the stages are pairwise disjoint, so stage
indices are well defined. -/
theorem c2_planner_stratification (wf : WMap) (S : List String)
    (hcl : ClosureClosed wf S) (hacyc : ¬ HasReachableCycle wf S) :
    ∃ stages, determineOrder wf S = .ok stages ∧
      (∀ n, (∃ st ∈ stages, n ∈ st) ↔ Reach wf S n) ∧
      (∀ s ∈ S, ∃ st ∈ stages, s ∈ st) ∧
      (∀ i, ∀ hi : i < stages.length, ∀ a ∈ stages.get ⟨i, hi⟩, ∀ node,
        lookupWf wf a = some node → ∀ b ∈ preOf node,
        ∃ j, ∃ hj : j < stages.length, j < i ∧ b ∈ stages.get ⟨j, hj⟩) ∧
      List.Pairwise (fun s t => ∀ n ∈ s, n ∉ t) stages := by
  obtain ⟨acc, hbuild, hI3, hkeysiff, hnd, hclosedacc⟩ :=
    build_spec wf S hcl S.reverse ∅ []
      (fun k hk => Reach.target k (List.mem_reverse.mp hk))
      (fun k hk => absurd hk (Finset.not_mem_empty k))
      (fun p hp => absurd hp (List.not_mem_nil p))
      (by
        intro k
        constructor
        · intro hk
          exact absurd hk (Finset.not_mem_empty k)
        · intro hk
          exact absurd hk (List.not_mem_nil k))
      List.nodup_nil
      (fun p hp => absurd hp (List.not_mem_nil p))
      (fun t ht => Or.inr (List.mem_reverse.mpr ht))
  have hedge_prestep : ∀ x y, EdgeOf acc x y → PreStep wf x y := by
    intro x y ⟨ps, hmem, hyps, _⟩
    obtain ⟨node, hl, hpre⟩ := hI3 (x, ps) hmem
    refine PreStep.mk node hl ?_
    rw [← hpre]
    exact hyps
  have hacyc2 : ¬ ∃ a, Relation.TransGen (EdgeOf acc) a a := by
    intro ⟨a, ha⟩
    obtain ⟨y, hay, _⟩ := Relation.TransGen.head'_iff.mp ha
    obtain ⟨ps, hmem, _, _⟩ := hay
    have hak : a ∈ acc.map Prod.fst := List.mem_map_of_mem Prod.fst hmem
    exact hacyc ⟨a, (hkeysiff a).mp hak, Relation.TransGen.mono hedge_prestep ha⟩
  obtain ⟨stages, hok, hiff, hord, hpw, _⟩ := stratify_spec acc ∅ hnd
    (fun p hp b hb => Or.inr (hclosedacc p hp b hb))
    (fun k _ hk => absurd hk (Finset.not_mem_empty k))
    hacyc2
  refine ⟨stages, ?_, ?_, ?_, ?_, hpw⟩
  · unfold determineOrder
    rw [hbuild]
    exact hok
  · intro n
    rw [hiff n]
    exact hkeysiff n
  · intro t ht
    exact (hiff t).mpr ((hkeysiff t).mpr (Reach.target t ht))
  · intro i hi a ha node hlook b hb
    have haflat : a ∈ acc.map Prod.fst :=
      (hiff a).mp ⟨_, stages.get_mem _ _, ha⟩
    obtain ⟨p, hp, hp1⟩ := List.mem_map.mp haflat
    obtain ⟨node2, hl2, hpre2⟩ := hI3 p hp
    rw [hp1] at hl2
    have hnode : node2 = node := Option.some.inj (hl2.symm.trans hlook)
    have hpm : (a, preOf node) ∈ acc := by
      have hpe : p = (a, preOf node) :=
        Prod.ext hp1 (hpre2.trans (congrArg preOf hnode))
      rw [← hpe]
      exact hp
    rcases hord i hi a ha (preOf node) hpm b hb with h | h
    · exact absurd h (Finset.not_mem_empty b)
    · exact h

/-- The C2 witness workflow: the single node `solo` with no prerequisites. -/
def c2wf : WMap := [("solo", ⟨none⟩)]

theorem c2wf_lookup (m : String) (node : WNode) (h : lookupWf c2wf m = some node) :
    node = ⟨none⟩ := by
  by_cases hm : m = "solo"
  · subst hm
    have hv : lookupWf c2wf "solo" = some ⟨none⟩ := rfl
    rw [hv] at h
    exact (Option.some.inj h).symm
  · have hbe : (("solo" : String) == m) = false :=
      beq_eq_false_iff_ne.mpr (fun he => hm he.symm)
    have hnone : lookupWf c2wf m = none := by
      unfold lookupWf c2wf
      rw [List.find?_cons]
      rw [show ((("solo", (⟨none⟩ : WNode)) : String × WNode).1 == m) = false from hbe]
      rfl
    rw [hnone] at h
    exact Option.noConfusion h

theorem c2wf_no_prestep (x y : String) (h : PreStep c2wf x y) : False := by
  cases h with
  | mk node hl hm =>
      rw [c2wf_lookup x node hl] at hm
      simp [preOf] at hm

/-- Witness for C2: the acyclic single-node workflow plans successfully and
its plan covers the target. -/
theorem c2_witness :
    ∃ stages, determineOrder c2wf ["solo"] = .ok stages ∧
      ∀ s ∈ ["solo"], ∃ st ∈ stages, s ∈ st := by
  have hcl : ClosureClosed c2wf ["solo"] := by
    intro n hn
    have hsolo : n = "solo" := by
      induction hn with
      | target n hn2 => simpa using hn2
      | pre m n _ hstep _ => exact absurd hstep (c2wf_no_prestep m n)
    rw [hsolo]
    rfl
  have hacyc : ¬ HasReachableCycle c2wf ["solo"] := by
    intro ⟨a, _, htg⟩
    cases htg with
    | single h => exact c2wf_no_prestep _ _ h
    | tail _ h => exact c2wf_no_prestep _ _ h
  obtain ⟨stages, hok, _, hsup, _, _⟩ := c2_planner_stratification c2wf ["solo"] hcl hacyc
  exact ⟨stages, hok, hsup⟩

/-- The drain loop can never drain a node set `C` in which every member's
recorded prerequisites include another member: once work remains that is
all cyclic, the loop must fail with `NodeRecursion`. -/
theorem stratify_stuck (C : String → Prop) :
    ∀ (mapAcc : List (String × List String)) (seen : Finset String),
      (mapAcc.map Prod.fst).Nodup →
      (∃ x, C x) →
      (∀ x, C x → x ∈ mapAcc.map Prod.fst) →
      (∀ x, C x → ∀ ps, (x, ps) ∈ mapAcc → ∃ y, C y ∧ y ∈ ps) →
      (∀ x, C x → x ∉ seen) →
      stratify mapAcc seen = .error .nodeRecursion := by
  intro mapAcc seen
  induction mapAcc, seen using stratify.induct with
  | case1 mapAcc seen hmap =>
      intro _hnd ⟨x, hx⟩ hCkeys _hCsucc _hCseen
      have hk := hCkeys x hx
      rw [List.length_eq_zero.mp hmap] at hk
      exact absurd hk (List.not_mem_nil x)
  | case2 mapAcc seen hmap leafs hleafs =>
      intro _ _ _ _ _
      have hld : leafs = mapAcc.filter (isLeaf seen) := rfl
      rw [hld] at hleafs
      exact stratify_stuck_eq mapAcc seen hmap hleafs
  | case3 mapAcc seen hmap leafs hleafs rest stages0 hok ih =>
      intro hnd ⟨x, hx⟩ hCkeys hCsucc hCseen
      have hld : leafs = mapAcc.filter (isLeaf seen) := rfl
      -- the entry of a C-member is never a leaf and never drained
      have hCentry : ∀ z, C z → ∃ ps, (z, ps) ∈ mapAcc := by
        intro z hz
        obtain ⟨p, hp, hp1⟩ := List.mem_map.mp (hCkeys z hz)
        refine ⟨p.2, ?_⟩
        have hpe : p = (z, p.2) := Prod.ext hp1 rfl
        rw [← hpe]
        exact hp
      have hCnotleaf : ∀ z, C z → ∀ ps, (z, ps) ∈ mapAcc →
          isLeaf seen (z, ps) = false := by
        intro z hz ps hps
        obtain ⟨y, hCy, hyps⟩ := hCsucc z hz ps hps
        unfold isLeaf
        refine List.all_eq_false.mpr ⟨y, hyps, ?_⟩
        simpa using hCseen y hCy
      have hCnotleafkey : ∀ z, C z → ∀ l ∈ leafs, l.1 ≠ z := by
        intro z hz l hl hlz
        have hlm : l ∈ mapAcc := List.mem_of_mem_filter hl
        have hlleaf : isLeaf seen l = true := (List.mem_filter.mp (hld ▸ hl)).2
        have hle : l = (z, l.2) := Prod.ext hlz rfl
        have : isLeaf seen (z, l.2) = false :=
          hCnotleaf z hz l.2 (by rw [← hle]; exact hlm)
        rw [← hle] at this
        rw [hlleaf] at this
        exact Bool.noConfusion this
      have hCrest : ∀ z, C z → z ∈ rest.map Prod.fst := by
        intro z hz
        obtain ⟨ps, hps⟩ := hCentry z hz
        have hpred : (!(leafs.any (fun l => l.1 == (z, ps).1))) = true := by
          have hany : leafs.any (fun l => l.1 == (z, ps).1) = false := by
            cases h2 : leafs.any (fun l => l.1 == (z, ps).1) with
            | false => rfl
            | true =>
                obtain ⟨l, hl, hlz⟩ := List.any_eq_true.mp h2
                exact absurd (by simpa using hlz) (hCnotleafkey z hz l hl)
          rw [hany]
          rfl
        exact List.mem_map_of_mem _ (List.mem_filter.mpr ⟨hps, hpred⟩)
      have hCseen2 : ∀ z, C z → z ∉ seen ∪ (leafs.map Prod.fst).toFinset := by
        intro z hz hmem
        rcases Finset.mem_union.mp hmem with h | h
        · exact hCseen z hz h
        · obtain ⟨l, hl, hl1⟩ := List.mem_map.mp (List.mem_toFinset.mp h)
          exact hCnotleafkey z hz l hl hl1
      have hnd2 : (rest.map Prod.fst).Nodup :=
        List.Nodup.sublist (List.Sublist.map Prod.fst (List.filter_sublist mapAcc)) hnd
      have herr := ih hnd2 ⟨x, hx⟩ hCrest
        (fun z hz ps hps => hCsucc z hz ps (List.mem_of_mem_filter hps)) hCseen2
      rw [hok] at herr
      exact Except.noConfusion herr
  | case4 mapAcc seen hmap leafs hleafs rest e herr ih =>
      intro hnd ⟨x, hx⟩ hCkeys hCsucc hCseen
      have hld : leafs = mapAcc.filter (isLeaf seen) := rfl
      have hrd : rest = mapAcc.filter (fun p => !(leafs.any (fun l => l.1 == p.1))) := rfl
      have hCentry : ∀ z, C z → ∃ ps, (z, ps) ∈ mapAcc := by
        intro z hz
        obtain ⟨p, hp, hp1⟩ := List.mem_map.mp (hCkeys z hz)
        refine ⟨p.2, ?_⟩
        have hpe : p = (z, p.2) := Prod.ext hp1 rfl
        rw [← hpe]
        exact hp
      have hCnotleaf : ∀ z, C z → ∀ ps, (z, ps) ∈ mapAcc →
          isLeaf seen (z, ps) = false := by
        intro z hz ps hps
        obtain ⟨y, hCy, hyps⟩ := hCsucc z hz ps hps
        unfold isLeaf
        refine List.all_eq_false.mpr ⟨y, hyps, ?_⟩
        simpa using hCseen y hCy
      have hCnotleafkey : ∀ z, C z → ∀ l ∈ leafs, l.1 ≠ z := by
        intro z hz l hl hlz
        have hlm : l ∈ mapAcc := List.mem_of_mem_filter hl
        have hlleaf : isLeaf seen l = true := (List.mem_filter.mp (hld ▸ hl)).2
        have hle : l = (z, l.2) := Prod.ext hlz rfl
        have : isLeaf seen (z, l.2) = false :=
          hCnotleaf z hz l.2 (by rw [← hle]; exact hlm)
        rw [← hle] at this
        rw [hlleaf] at this
        exact Bool.noConfusion this
      have hCrest : ∀ z, C z → z ∈ rest.map Prod.fst := by
        intro z hz
        obtain ⟨ps, hps⟩ := hCentry z hz
        have hpred : (!(leafs.any (fun l => l.1 == (z, ps).1))) = true := by
          have hany : leafs.any (fun l => l.1 == (z, ps).1) = false := by
            cases h2 : leafs.any (fun l => l.1 == (z, ps).1) with
            | false => rfl
            | true =>
                obtain ⟨l, hl, hlz⟩ := List.any_eq_true.mp h2
                exact absurd (by simpa using hlz) (hCnotleafkey z hz l hl)
          rw [hany]
          rfl
        exact List.mem_map_of_mem _ (List.mem_filter.mpr ⟨hps, hpred⟩)
      have hCseen2 : ∀ z, C z → z ∉ seen ∪ (leafs.map Prod.fst).toFinset := by
        intro z hz hmem
        rcases Finset.mem_union.mp hmem with h | h
        · exact hCseen z hz h
        · obtain ⟨l, hl, hl1⟩ := List.mem_map.mp (List.mem_toFinset.mp h)
          exact hCnotleafkey z hz l hl hl1
      have hnd2 : (rest.map Prod.fst).Nodup :=
        List.Nodup.sublist (List.Sublist.map Prod.fst (List.filter_sublist mapAcc)) hnd
      have herr2 := ih hnd2 ⟨x, hx⟩ hCrest
        (fun z hz ps hps => hCsucc z hz ps (List.mem_of_mem_filter hps)) hCseen2
      rw [herr] at herr2
      have he : e = Err.nodeRecursion := Except.error.inj herr2
      rw [stratify_step mapAcc seen hmap (by rw [← hld]; exact hleafs), ← hld, ← hrd, herr,
        he]

/-- C5: for every workflow whose prerequisite graph, with its reachable
closure present in the workflow, has a cycle among the nodes reachable from
the target set, planning fails with `NodeRecursion`: the drain loop can
never make the cyclic nodes eligible, so an iteration drains nothing while
work remains. -/
theorem c5_node_recursion (wf : WMap) (S : List String)
    (hcl : ClosureClosed wf S) (hcyc : HasReachableCycle wf S) :
    determineOrder wf S = .error .nodeRecursion := by
  obtain ⟨acc, hbuild, hI3, hkeysiff, hnd, _⟩ :=
    build_spec wf S hcl S.reverse ∅ []
      (fun k hk => Reach.target k (List.mem_reverse.mp hk))
      (fun k hk => absurd hk (Finset.not_mem_empty k))
      (fun p hp => absurd hp (List.not_mem_nil p))
      (by
        intro k
        constructor
        · intro hk
          exact absurd hk (Finset.not_mem_empty k)
        · intro hk
          exact absurd hk (List.not_mem_nil k))
      List.nodup_nil
      (fun p hp => absurd hp (List.not_mem_nil p))
      (fun t ht => Or.inr (List.mem_reverse.mpr ht))
  obtain ⟨a, hra, htg⟩ := hcyc
  have hreach_of_rtg : ∀ z, Relation.ReflTransGen (PreStep wf) a z → Reach wf S z := by
    intro z hz
    induction hz with
    | refl => exact hra
    | tail _ hstep ih => exact Reach.pre _ _ ih hstep
  refine ?_
  have hstuck := stratify_stuck
    (fun z => Relation.ReflTransGen (PreStep wf) a z ∧ Relation.ReflTransGen (PreStep wf) z a)
    acc ∅ hnd ⟨a, Relation.ReflTransGen.refl, Relation.ReflTransGen.refl⟩
    (fun z hz => (hkeysiff z).mpr (hreach_of_rtg z hz.1))
    (by
      intro z hz ps hmem
      obtain ⟨haz, hza⟩ := hz
      have htx : Relation.TransGen (PreStep wf) z a := by
        rcases Relation.ReflTransGen.cases_head hza with heq | ⟨c, hzc, hca⟩
        · rw [heq]
          exact htg
        · exact Relation.TransGen.head' hzc hca
      obtain ⟨y, hzy, hya⟩ := Relation.TransGen.head'_iff.mp htx
      obtain ⟨node1, hl1, hps1⟩ := hI3 (z, ps) hmem
      cases hzy with
      | mk node2 hl2 hm2 =>
          have hnode : node1 = node2 := Option.some.inj (hl1.symm.trans hl2)
          refine ⟨y, ⟨Relation.ReflTransGen.tail haz (PreStep.mk node2 hl2 hm2), hya⟩, ?_⟩
          have hps2 : ps = preOf node2 := hps1.trans (congrArg preOf hnode)
          rw [hps2]
          exact hm2)
    (fun z _ => Finset.not_mem_empty z)
  unfold determineOrder
  rw [hbuild]
  exact hstuck

/-- The C5 witness workflow: `a.pre = [b]`, `b.pre = [a]`. -/
def c5wf : WMap := [("a", ⟨some ["b"]⟩), ("b", ⟨some ["a"]⟩)]

theorem c5wf_lookup (m : String) (node : WNode) (h : lookupWf c5wf m = some node) :
    (m = "a" ∧ node = ⟨some ["b"]⟩) ∨ (m = "b" ∧ node = ⟨some ["a"]⟩) := by
  by_cases ha : m = "a"
  · subst ha
    have hv : lookupWf c5wf "a" = some ⟨some ["b"]⟩ := rfl
    rw [hv] at h
    exact Or.inl ⟨rfl, (Option.some.inj h).symm⟩
  · by_cases hb : m = "b"
    · subst hb
      have hv : lookupWf c5wf "b" = some ⟨some ["a"]⟩ := rfl
      rw [hv] at h
      exact Or.inr ⟨rfl, (Option.some.inj h).symm⟩
    · have hba : (("a" : String) == m) = false :=
        beq_eq_false_iff_ne.mpr (fun he => ha he.symm)
      have hbb : (("b" : String) == m) = false :=
        beq_eq_false_iff_ne.mpr (fun he => hb he.symm)
      have hnone : lookupWf c5wf m = none := by
        unfold lookupWf c5wf
        rw [List.find?_cons]
        rw [show ((("a", (⟨some ["b"]⟩ : WNode)) : String × WNode).1 == m) = false from hba]
        rw [List.find?_cons]
        rw [show ((("b", (⟨some ["a"]⟩ : WNode)) : String × WNode).1 == m) = false from hbb]
        rfl
      rw [hnone] at h
      exact Option.noConfusion h

/-- Witness for C5: the two-node cycle `a ↔ b` with target `{a}` fails with
`NodeRecursion`. -/
theorem c5_witness : determineOrder c5wf ["a"] = .error .nodeRecursion := by
  have hstep_ab : PreStep c5wf "a" "b" :=
    PreStep.mk ⟨some ["b"]⟩ rfl (by simp [preOf])
  have hstep_ba : PreStep c5wf "b" "a" :=
    PreStep.mk ⟨some ["a"]⟩ rfl (by simp [preOf])
  have hcl : ClosureClosed c5wf ["a"] := by
    intro n hn
    have hab : n = "a" ∨ n = "b" := by
      induction hn with
      | target n hn2 => exact Or.inl (by simpa using hn2)
      | pre m n _ hstep _ =>
          cases hstep with
          | mk node hl hm =>
              rcases c5wf_lookup m node hl with ⟨_, rfl⟩ | ⟨_, rfl⟩
              · simp only [preOf, Option.getD_some] at hm
                exact Or.inr (by simpa using hm)
              · simp only [preOf, Option.getD_some] at hm
                exact Or.inl (by simpa using hm)
    rcases hab with rfl | rfl
    · rfl
    · rfl
  have hcyc : HasReachableCycle c5wf ["a"] :=
    ⟨"a", Reach.target "a" (by simp),
      Relation.TransGen.head hstep_ab (Relation.TransGen.single hstep_ba)⟩
  exact c5_node_recursion c5wf ["a"] hcl hcyc

end Neomake
